import Mathlib

/-!
Shallow embedding of the two concurrent set implementations of this repository
(`src/Concurrency/StripedHashSet.h`, both variants, and the
`OptimisticLinkedSet` in the unnamed header), together with proofs checking the
natural-language specification against the code.

The operations are modelled by their sequential (quiescent) semantics: each
public call runs to completion with no other operation in flight, which is the
setting in which the checked claims (invariants at quiescent points, results of
call sequences, load-factor arithmetic) are stated.  Machine `size_t`
arithmetic is modelled as `Nat` reduced modulo `2 ^ 64`; `double` values of the
magnitudes appearing in the claims are exactly representable, so the
`double`-to-`size_t` truncations in the source are modelled by rational floor
and by `Nat` division.  Fallible paths (null-pointer dereference after the tail
sentinel has been unlinked, and the unbounded retry/recursion loops) are
modelled with `Option`, `none` standing for a call that never returns normally.
-/

/-- Number of values of the C++ `size_t` (64-bit) type; `std::atomic<size_t>`
counters wrap modulo this constant. -/
def sizetCard : Nat := 2 ^ 64

/-- The C++ constructor parameter `const double load_factor` is stored into the
field `std::size_t max_load_factor_`: conversion of a non-negative `double` to
`size_t` truncates towards zero, i.e. takes the floor. -/
def doubleToSizet (q : ℚ) : Nat := (⌊q⌋).toNat

/-- One call of the shared `{Insert, Remove, Contains, Size}` contract. -/
inductive SetOp where
  | ins (v : Int)
  | rem (v : Int)
  | qry (v : Int)
  | siz
deriving DecidableEq

/-- The value returned by one call: a `bool` or a `size_t`. -/
inductive SetRes where
  | rb (b : Bool)
  | rn (n : Nat)
deriving DecidableEq

/-- Number of successful (`true`-returning) `Insert` calls in an aligned
trace of operations and results. -/
def succIns : List SetOp → List SetRes → Nat
  | SetOp.ins _ :: ops, SetRes.rb true :: rs => succIns ops rs + 1
  | _ :: ops, _ :: rs => succIns ops rs
  | _, _ => 0

/-- Number of successful (`true`-returning) `Remove` calls in an aligned
trace of operations and results. -/
def succRem : List SetOp → List SetRes → Nat
  | SetOp.rem _ :: ops, SetRes.rb true :: rs => succRem ops rs + 1
  | _ :: ops, _ :: rs => succRem ops rs
  | _, _ => 0

/-- All element arguments of a trace lie strictly between `lo` and `hi`. -/
def argsBetween (lo hi : Int) : List SetOp → Prop
  | [] => True
  | SetOp.ins v :: ops => (lo < v ∧ v < hi) ∧ argsBetween lo hi ops
  | SetOp.rem v :: ops => (lo < v ∧ v < hi) ∧ argsBetween lo hi ops
  | SetOp.qry v :: ops => (lo < v ∧ v < hi) ∧ argsBetween lo hi ops
  | SetOp.siz :: ops => argsBetween lo hi ops

instance (lo hi : Int) (ops : List SetOp) : Decidable (argsBetween lo hi ops) := by
  induction ops with
  | nil => exact isTrue trivial
  | cons op ops ih =>
    cases op <;> simp only [argsBetween] <;> exact inferInstance

namespace StripedHashSet

/-- State of a `StripedHashSet<T>` with `T` modelled by `Int`.  The hash
function (a pure deterministic `T -> size_t` function, per the contract of
`std::hash`) is passed to each operation.  `buckets` is `hash_table_`
(`std::vector<std::forward_list<T>>`); its length is the current capacity.
`size` is the atomic counter `num_elements_`.  The stripe locks carry no
sequential meaning; `numStripes` is kept only as constructor data. -/
structure State where
  growth : Nat
  maxLoad : Nat
  numStripes : Nat
  buckets : List (List Int)
  size : Nat
deriving DecidableEq

/-- The constructor
`StripedHashSet(concurrency_level, growth_factor = 2, load_factor = 1.25)`:
the table starts with `concurrency_level` empty buckets, the counter at zero,
and the `double` load factor truncated into the `std::size_t` field
`max_load_factor_`. -/
def construct (concurrencyLevel growthFactor : Nat) (loadFactor : ℚ) : State :=
  { growth := growthFactor
    maxLoad := doubleToSizet loadFactor
    numStripes := concurrencyLevel
    buckets := List.replicate concurrencyLevel []
    size := 0 }

/-- `GetBucketIndex`: `element_hash_value % hash_table_.size()`. -/
def GetBucketIndex (s : State) (h : Nat) : Nat := h % s.buckets.length

/-- `GetLoadFactor`: the source computes
`static_cast<double>(num_elements_.load()) / hash_table_.size()` but returns it
as `std::size_t`, truncating the quotient; for the sizes reachable here the
`double` division is exact, so this is `Nat` division. -/
def GetLoadFactor (s : State) : Nat := s.size / s.buckets.length

/-- The rehash loop body of `Rehash`: for each bucket in table order, for each
item in bucket order, `temp[hash % new_size].push_front(item)`. -/
def placeItems (hash : Int → Nat) (newSize : Nat) (items : List Int)
    (temp : List (List Int)) : List (List Int) :=
  items.foldl (fun t x => t.set (hash x % newSize) (x :: t.getD (hash x % newSize) [])) temp

/-- `Rehash` (with all stripe locks held): re-check the load factor and return
unchanged if no longer over threshold; otherwise rebuild the table with
`hash_table_.size() * growth_factor_` buckets.  `num_elements_` is untouched. -/
def Rehash (hash : Int → Nat) (s : State) : State :=
  if GetLoadFactor s ≤ s.maxLoad then s
  else
    let newSize := s.buckets.length * s.growth
    { s with buckets := placeItems hash newSize s.buckets.flatten (List.replicate newSize []) }

/-- `Insert`, fuelled: the source retries by recursion (`Rehash(); return
Insert(element);`), which diverges when the growth factor does not actually
grow the table; `none` models a call that never returns. -/
def Insert (hash : Int → Nat) : Nat → State → Int → Option (Bool × State)
  | 0, _, _ => none
  | fuel + 1, s, v =>
    let bi := GetBucketIndex s (hash v)
    let bucket := s.buckets.getD bi []
    if v ∈ bucket then some (false, s)
    else if s.maxLoad < GetLoadFactor s then
      Insert hash fuel (Rehash hash s) v
    else
      some (true, { s with buckets := s.buckets.set bi (v :: bucket),
                           size := (s.size + 1) % sizetCard })

/-- `Insert` with enough fuel for any table whose growth factor is at least 2
(proved below); with less growth the source recursion can diverge. -/
def InsertTop (hash : Int → Nat) (s : State) (v : Int) : Option (Bool × State) :=
  Insert hash (s.size + 2) s v

/-- `Remove`: scan bucket `hash % capacity`; if absent return `false`,
otherwise `forward_list::remove` (which erases every element equal to the
argument) and `fetch_sub(1)` on the counter. -/
def Remove (hash : Int → Nat) (s : State) (v : Int) : Bool × State :=
  let bi := GetBucketIndex s (hash v)
  let bucket := s.buckets.getD bi []
  if v ∈ bucket then
    (true, { s with buckets := s.buckets.set bi (bucket.filter (fun x => x ≠ v)),
                    size := (s.size + (sizetCard - 1)) % sizetCard })
  else (false, s)

/-- `Contains`: whether the element occurs in bucket `hash % capacity`. -/
def Contains (hash : Int → Nat) (s : State) (v : Int) : Bool :=
  decide (v ∈ s.buckets.getD (GetBucketIndex s (hash v)) [])

/-- `Size`: `num_elements_.load()`. -/
def Size (s : State) : Nat := s.size

/-- All elements of the table, in bucket-then-chain order (the iteration order
of the `Rehash` loop). -/
def elems (s : State) : List Int := s.buckets.flatten

/-- Sum of all bucket lengths. -/
def sumLen (s : State) : Nat := (s.buckets.map List.length).sum

/-- Run one call against the striped set. -/
def step (hash : Int → Nat) (s : State) : SetOp → Option (SetRes × State)
  | SetOp.ins v => (InsertTop hash s v).map (fun r => (SetRes.rb r.1, r.2))
  | SetOp.rem v => some (SetRes.rb (Remove hash s v).1, (Remove hash s v).2)
  | SetOp.qry v => some (SetRes.rb (Contains hash s v), s)
  | SetOp.siz => some (SetRes.rn (Size s), s)

/-- Run a sequence of calls against the striped set. -/
def run (hash : Int → Nat) : List SetOp → State → Option (List SetRes × State)
  | [], s => some ([], s)
  | op :: ops, s =>
    match step hash s op with
    | none => none
    | some (r, s') => (run hash ops s').map (fun p => (r :: p.1, p.2))

/-- Quiescent well-formedness of a striped-set state: positive capacity, a
growth factor that actually grows the table, every element in the bucket its
hash selects, no duplicates inside a bucket, and the `size_t` counter equal to
the number of stored elements modulo `2 ^ 64`.  These hold in every reachable
state and are preserved by every operation (proved below). -/
structure Inv (hash : Int → Nat) (s : State) : Prop where
  capPos : 1 ≤ s.buckets.length
  growth2 : 2 ≤ s.growth
  placed : ∀ i, i < s.buckets.length → ∀ v ∈ s.buckets.getD i [],
    hash v % s.buckets.length = i
  nodup : ∀ i, (s.buckets.getD i []).Nodup
  sizeEq : s.size = (elems s).length % sizetCard

end StripedHashSet

namespace OptimisticLinkedSet

/-- One list node: the immutable `element_` and the `marked_` flag.  The
`next_` pointer is represented by adjacency in the chain list; the per-node
spinlock carries no sequential meaning. -/
structure LNode where
  elem : Int
  marked : Bool
deriving DecidableEq

/-- State of an `OptimisticLinkedSet<T>` with `T` modelled by `Int`: the chain
of nodes reachable from `head_` (in `next_` order), the nodes that have been
unlinked from the chain but still live in the arena, and the atomic counter
`elements_`. -/
structure LSet where
  chain : List LNode
  unlinked : List LNode
  size : Nat
deriving DecidableEq

/-- `CreateEmptyList`: `head_` holds `ElementTraits<T>::Min()` and points at a
tail node holding `ElementTraits<T>::Max()`; for an integral `T` these are
`std::numeric_limits` min and max. -/
def initL (minV maxV : Int) : LSet :=
  { chain := [⟨minV, false⟩, ⟨maxV, false⟩], unlinked := [], size := 0 }

/-- The `Insert` loop, walking the nodes after `head_` exactly as
`Locate` does (`while (curr->element_ < element)`), with `pred` the node before
the current one.  At the stop position the code locks the edge and validates
it; sequentially `pred_->next_ == curr_` always holds, so validation fails (and
the loop retries forever, modelled `none`) exactly when a node of the edge is
marked.  Walking past the last node models `Locate` dereferencing a null
`curr`. -/
def walkIns (v : Int) : LNode → List LNode → Option (Bool × List LNode)
  | _, [] => none
  | pred, curr :: rest =>
    if curr.elem < v then
      (walkIns v curr rest).map (fun r => (r.1, curr :: r.2))
    else if pred.marked || curr.marked then none
    else if curr.elem = v then some (false, curr :: rest)
    else some (true, ⟨v, false⟩ :: curr :: rest)

/-- `Insert`: on success the new node is spliced before the stop position and
`elements_` is incremented (`fetch_add`, wrapping `size_t`). -/
def insert (s : LSet) (v : Int) : Option (Bool × LSet) :=
  match s.chain with
  | [] => none
  | h :: t =>
    match walkIns v h t with
    | none => none
    | some (false, t') => some (false, { s with chain := h :: t' })
    | some (true, t') =>
      some (true, { chain := h :: t', unlinked := s.unlinked,
                    size := (s.size + 1) % sizetCard })

/-- The `Remove` loop, analogous to `walkIns`; on success it returns the chain
with the current node excised together with that node. -/
def walkRem (v : Int) : LNode → List LNode → Option (Bool × List LNode × Option LNode)
  | _, [] => none
  | pred, curr :: rest =>
    if curr.elem < v then
      (walkRem v curr rest).map (fun r => (r.1, curr :: r.2.1, r.2.2))
    else if pred.marked || curr.marked then none
    else if curr.elem = v then some (true, rest, some curr)
    else some (false, curr :: rest, none)

/-- `Remove`: on success `pred_->next_` is redirected past the current node
(which stays in the arena, its `marked_` flag untouched) and `elements_` is
decremented (`fetch_sub`, wrapping `size_t`). -/
def remove (s : LSet) (v : Int) : Option (Bool × LSet) :=
  match s.chain with
  | [] => none
  | h :: t =>
    match walkRem v h t with
    | none => none
    | some (false, _, _) => some (false, s)
    | some (true, t', c) =>
      some (true, { chain := h :: t',
                    unlinked := (match c with | some n => [n] | none => []) ++ s.unlinked,
                    size := (s.size + (sizetCard - 1)) % sizetCard })

/-- The `Contains` read path: the same lock-free walk, then
`!candidate->marked_.load() && candidate->element_ == element` with no locking
and no validation. -/
def walkCont (v : Int) : List LNode → Option Bool
  | [] => none
  | curr :: rest =>
    if curr.elem < v then walkCont v rest
    else some (!curr.marked && decide (curr.elem = v))

/-- `Contains`. -/
def contains (s : LSet) (v : Int) : Option Bool :=
  match s.chain with
  | [] => none
  | _ :: t => walkCont v t

/-- `Size`: `elements_.load()`. -/
def size (s : LSet) : Nat := s.size

/-- Element values of the chain interior, i.e. of the live set members between
the two sentinels. -/
def interior (s : LSet) : List Int := ((s.chain.drop 1).dropLast).map LNode.elem

/-- Run one call against the linked set. -/
def step (s : LSet) : SetOp → Option (SetRes × LSet)
  | SetOp.ins v => (insert s v).map (fun r => (SetRes.rb r.1, r.2))
  | SetOp.rem v => (remove s v).map (fun r => (SetRes.rb r.1, r.2))
  | SetOp.qry v => (contains s v).map (fun b => (SetRes.rb b, s))
  | SetOp.siz => some (SetRes.rn (size s), s)

/-- Run a sequence of calls against the linked set. -/
def run : List SetOp → LSet → Option (List SetRes × LSet)
  | [], s => some ([], s)
  | op :: ops, s =>
    match step s op with
    | none => none
    | some (r, s') => (run ops s').map (fun p => (r :: p.1, p.2))

/-- The node ordering used throughout: strictly increasing `element_`. -/
def nlt (a b : LNode) : Prop := a.elem < b.elem

instance : DecidableRel nlt := fun a b => inferInstanceAs (Decidable (a.elem < b.elem))

instance : IsTrans LNode nlt := ⟨fun _ _ _ h₁ h₂ => lt_trans h₁ h₂⟩

/-- Strictly increasing element values along a chain of nodes. -/
def StrictChain (l : List LNode) : Prop :=
  List.Chain' nlt l

instance (l : List LNode) : Decidable (StrictChain l) :=
  inferInstanceAs (Decidable (List.Chain' nlt l))

/-- Quiescent well-formedness of a linked-set state: the chain runs from the
`MIN` sentinel to the `MAX` sentinel, is strictly sorted, and no node in the
chain is marked. -/
def WFL (minV maxV : Int) (s : LSet) : Prop :=
  (∃ mid : List LNode, s.chain = ⟨minV, false⟩ :: (mid ++ [⟨maxV, false⟩])) ∧
    StrictChain s.chain ∧ ∀ n ∈ s.chain, n.marked = false

/-- States reachable from the empty set by completed operations; `Contains`
does not change the state, so only `Insert` and `Remove` appear.  Arguments
range over the representable values of `T`, i.e. between
`ElementTraits<T>::Min()` and `ElementTraits<T>::Max()` inclusive. -/
inductive ReachL (minV maxV : Int) : LSet → Prop where
  | init : ReachL minV maxV (initL minV maxV)
  | insStep {s s' : LSet} {v : Int} {b : Bool} : ReachL minV maxV s →
      minV ≤ v → v ≤ maxV → insert s v = some (b, s') → ReachL minV maxV s'
  | remStep {s s' : LSet} {v : Int} {b : Bool} : ReachL minV maxV s →
      minV ≤ v → v ≤ maxV → remove s v = some (b, s') → ReachL minV maxV s'

end OptimisticLinkedSet

namespace OptimisticLinkedSet

/-- Guard of the `Locate` loop, `curr->element_ < element`, as a `Bool`
predicate on nodes. -/
def ltv (v : Int) : LNode → Bool := fun n => decide (n.elem < v)

/-- The `Validate` check of the source,
`!pred->marked_ && !curr->marked_ && pred->next_ == curr_`, with the pointer
comparison abstracted as a Boolean: in the sequential embedding the edge is
read off the chain itself, so the pointer conjunct is the argument
`next_eq`. -/
def Validate (pred curr : LNode) (next_eq : Bool) : Bool :=
  !pred.marked && !curr.marked && next_eq

/-- The `Contains` read path with its `!candidate->marked_.load()` conjunct
deleted, used to state that the marked check never rejects a candidate. -/
def walkContNoMark (v : Int) : List LNode → Option Bool
  | [] => none
  | curr :: rest =>
    if curr.elem < v then walkContNoMark v rest
    else some (decide (curr.elem = v))

/-- `Contains` without the marked check. -/
def containsNoMark (s : LSet) (v : Int) : Option Bool :=
  match s.chain with
  | [] => none
  | _ :: t => walkContNoMark v t

/-- Generalised quiescent well-formedness: the chain still starts at the
`MIN` head sentinel and ends at the `MAX` tail sentinel and every node is
unmarked, but only the part after the head is required to be strictly
sorted, with all its elements at least `MIN`.  This is the shape `Insert` of
the `MIN` sentinel value produces (the head value gets duplicated), and it
is what every operation on representable arguments other than a `Remove` of
the `MAX` value preserves. -/
def WFG (minV maxV : Int) (s : LSet) : Prop :=
  minV ≤ maxV ∧
    ∃ mid : List LNode, s.chain = ⟨minV, false⟩ :: (mid ++ [⟨maxV, false⟩]) ∧
      List.Pairwise nlt (mid ++ [⟨maxV, false⟩]) ∧
      (∀ n ∈ mid, minV ≤ n.elem) ∧
      ∀ n ∈ s.chain, n.marked = false

end OptimisticLinkedSet

/-- All element arguments of a trace are representable (between `lo` and
`hi` inclusive) and no `Remove` has the argument `hi`. -/
def argsNoRemMax (lo hi : Int) : List SetOp → Prop
  | [] => True
  | SetOp.ins v :: ops => (lo ≤ v ∧ v ≤ hi) ∧ argsNoRemMax lo hi ops
  | SetOp.rem v :: ops => (lo ≤ v ∧ v < hi) ∧ argsNoRemMax lo hi ops
  | SetOp.qry v :: ops => (lo ≤ v ∧ v ≤ hi) ∧ argsNoRemMax lo hi ops
  | SetOp.siz :: ops => argsNoRemMax lo hi ops

instance (lo hi : Int) (ops : List SetOp) : Decidable (argsNoRemMax lo hi ops) := by
  induction ops with
  | nil => exact isTrue trivial
  | cons op ops ih =>
    cases op <;> simp only [argsNoRemMax] <;> exact inferInstance

/-- All element arguments of a trace lie between `lo` inclusive and `hi`
exclusive, i.e. avoid the value `hi` entirely. -/
def argsBelow (lo hi : Int) : List SetOp → Prop
  | [] => True
  | SetOp.ins v :: ops => (lo ≤ v ∧ v < hi) ∧ argsBelow lo hi ops
  | SetOp.rem v :: ops => (lo ≤ v ∧ v < hi) ∧ argsBelow lo hi ops
  | SetOp.qry v :: ops => (lo ≤ v ∧ v < hi) ∧ argsBelow lo hi ops
  | SetOp.siz :: ops => argsBelow lo hi ops

instance (lo hi : Int) (ops : List SetOp) : Decidable (argsBelow lo hi ops) := by
  induction ops with
  | nil => exact isTrue trivial
  | cons op ops ih =>
    cases op <;> simp only [argsBelow] <;> exact inferInstance

namespace OptimisticLinkedSet

lemma strictChain_iff_pairwise {l : List LNode} :
    StrictChain l ↔ List.Pairwise nlt l := by
  unfold StrictChain
  exact List.chain'_iff_pairwise

lemma insert_cons (h : LNode) (t unl : List LNode) (sz : Nat) (v : Int) :
    insert ⟨h :: t, unl, sz⟩ v =
      match walkIns v h t with
      | none => none
      | some (false, t') => some (false, ⟨h :: t', unl, sz⟩)
      | some (true, t') => some (true, ⟨h :: t', unl, (sz + 1) % sizetCard⟩) := rfl

lemma remove_cons (h : LNode) (t unl : List LNode) (sz : Nat) (v : Int) :
    remove ⟨h :: t, unl, sz⟩ v =
      match walkRem v h t with
      | none => none
      | some (false, _, _) => some (false, ⟨h :: t, unl, sz⟩)
      | some (true, t', c) =>
        some (true, ⟨h :: t',
          (match c with | some n => [n] | none => []) ++ unl,
          (sz + (sizetCard - 1)) % sizetCard⟩) := rfl

lemma contains_cons (h : LNode) (t unl : List LNode) (sz : Nat) (v : Int) :
    contains ⟨h :: t, unl, sz⟩ v = walkCont v t := rfl

/-- Normal form of the `Insert` walk when no visited node is marked: the walk
stops at the first node whose element is not below `v` (the `dropWhile` head),
fails if that node holds `v`, and otherwise splices a fresh node there. -/
lemma walkIns_eq (v : Int) (t : List LNode) : ∀ pred : LNode, pred.marked = false →
    (∀ n ∈ t, n.marked = false) →
    walkIns v pred t =
      match t.dropWhile (ltv v) with
      | [] => none
      | c :: rest =>
        if c.elem = v then some (false, t)
        else some (true, t.takeWhile (ltv v) ++ ⟨v, false⟩ :: c :: rest) := by
  induction t with
  | nil => intro pred _ _; rfl
  | cons n rest ih =>
    intro pred hp hm
    have hn : n.marked = false := hm n (by simp)
    have hm' : ∀ x ∈ rest, x.marked = false := fun x hx => hm x (by simp [hx])
    rw [List.dropWhile_cons, List.takeWhile_cons]
    by_cases h : n.elem < v
    · have hlt : ltv v n = true := by simp [ltv, h]
      rw [hlt]
      simp only [if_true]
      have hstep : walkIns v pred (n :: rest) =
          (walkIns v n rest).map (fun r => (r.1, n :: r.2)) := by
        simp [walkIns, h]
      rw [hstep, ih n hn hm']
      cases hd : rest.dropWhile (ltv v) with
      | nil => simp
      | cons c r =>
        by_cases hc : c.elem = v
        · simp [hc]
        · simp [hc]
    · have hlt : ltv v n = false := by simp [ltv, h]
      rw [hlt]
      simp only [Bool.false_eq_true, if_false]
      by_cases hc : n.elem = v
      · simp [walkIns, h, hp, hn, hc]
      · simp [walkIns, h, hp, hn, hc]

/-- Normal form of the `Remove` walk when no visited node is marked. -/
lemma walkRem_eq (v : Int) (t : List LNode) : ∀ pred : LNode, pred.marked = false →
    (∀ n ∈ t, n.marked = false) →
    walkRem v pred t =
      match t.dropWhile (ltv v) with
      | [] => none
      | c :: rest =>
        if c.elem = v then some (true, t.takeWhile (ltv v) ++ rest, some c)
        else some (false, t, none) := by
  induction t with
  | nil => intro pred _ _; rfl
  | cons n rest ih =>
    intro pred hp hm
    have hn : n.marked = false := hm n (by simp)
    have hm' : ∀ x ∈ rest, x.marked = false := fun x hx => hm x (by simp [hx])
    rw [List.dropWhile_cons, List.takeWhile_cons]
    by_cases h : n.elem < v
    · have hlt : ltv v n = true := by simp [ltv, h]
      rw [hlt]
      simp only [if_true]
      have hstep : walkRem v pred (n :: rest) =
          (walkRem v n rest).map (fun r => (r.1, n :: r.2.1, r.2.2)) := by
        simp [walkRem, h]
      rw [hstep, ih n hn hm']
      cases hd : rest.dropWhile (ltv v) with
      | nil => simp
      | cons c r =>
        by_cases hc : c.elem = v
        · simp [hc]
        · simp [hc]
    · have hlt : ltv v n = false := by simp [ltv, h]
      rw [hlt]
      simp only [Bool.false_eq_true, if_false]
      by_cases hc : n.elem = v
      · simp [walkRem, h, hp, hn, hc]
      · simp [walkRem, h, hp, hn, hc]

/-- Normal form of the `Contains` walk: it needs no marked hypothesis since
the read path takes no locks and performs no validation. -/
lemma walkCont_eq (v : Int) (t : List LNode) :
    walkCont v t =
      match t.dropWhile (ltv v) with
      | [] => none
      | c :: _ => some (!c.marked && decide (c.elem = v)) := by
  induction t with
  | nil => rfl
  | cons n rest ih =>
    rw [List.dropWhile_cons]
    by_cases h : n.elem < v
    · have hlt : ltv v n = true := by simp [ltv, h]
      rw [hlt]
      simp only [if_true]
      have hstep : walkCont v (n :: rest) = walkCont v rest := by simp [walkCont, h]
      rw [hstep, ih]
    · have hlt : ltv v n = false := by simp [ltv, h]
      rw [hlt]
      simp only [Bool.false_eq_true, if_false]
      simp [walkCont, h]

/-- The stop node of the walk is not below `v`. -/
lemma stop_ge {v : Int} {t : List LNode} {c : LNode} {rest : List LNode}
    (h : t.dropWhile (ltv v) = c :: rest) : v ≤ c.elem := by
  have hh := List.head?_dropWhile_not (ltv v) t
  rw [h] at hh
  simp only [List.head?_cons] at hh
  simp only [ltv, decide_eq_false_iff_not] at hh
  exact le_of_not_lt hh

/-- Every node skipped by the walk is below `v`. -/
lemma takeWhile_lt {v : Int} {t : List LNode} : ∀ n ∈ t.takeWhile (ltv v), n.elem < v := by
  intro n hn
  have := List.mem_takeWhile_imp hn
  simpa [ltv] using this

/-- On a strictly sorted segment, some node holds `v` iff the stop node does. -/
lemma mem_stop {v : Int} {t : List LNode} (hs : List.Pairwise nlt t)
    {c : LNode} {rest : List LNode} (hd : t.dropWhile (ltv v) = c :: rest) :
    (∃ n ∈ t, n.elem = v) ↔ c.elem = v := by
  have hsplit : t.takeWhile (ltv v) ++ c :: rest = t := by
    rw [← hd]; exact List.takeWhile_append_dropWhile (ltv v) t
  constructor
  · rintro ⟨n, hn, hv⟩
    by_contra hne
    rw [← hsplit] at hn
    rcases List.mem_append.mp hn with h | h
    · exact absurd hv (ne_of_lt (takeWhile_lt n h))
    · rcases List.mem_cons.mp h with h | h
      · exact hne (h ▸ hv)
      · have hpw : List.Pairwise nlt (c :: rest) := by
          rw [← hd]
          exact List.Pairwise.sublist (List.IsSuffix.sublist (List.dropWhile_suffix (ltv v))) hs
        have hlt : c.elem < n.elem := (List.pairwise_cons.mp hpw).1 n h
        have := stop_ge hd
        omega
  · intro h
    refine ⟨c, ?_, h⟩
    rw [← hsplit]
    simp

/-- Interior of a well-formed chain, as the list of middle nodes. -/
lemma interior_eq {minV maxV : Int} {s : LSet} (mid : List LNode)
    (h : s.chain = ⟨minV, false⟩ :: (mid ++ [⟨maxV, false⟩])) :
    interior s = mid.map LNode.elem := by
  simp [interior, h, List.dropLast_concat]

/-- A walk whose bound does not exceed `maxV` always stops before running off
the tail sentinel. -/
lemma stop_exists {v maxV : Int} (hv : v ≤ maxV) (mid : List LNode) :
    (mid ++ [(⟨maxV, false⟩ : LNode)]).dropWhile (ltv v) ≠ [] := by
  intro h
  have := List.dropWhile_eq_nil_iff.mp h ⟨maxV, false⟩ (by simp)
  simp only [ltv, decide_eq_true_eq] at this
  omega

/-- Decomposition of a well-formed tail at the stop position: the skipped
nodes followed by the stop segment reassemble the tail, and the stop segment
still ends with the tail sentinel. -/
lemma stop_decomp {v maxV : Int} {mid : List LNode} {c : LNode} {rest : List LNode}
    (hd : (mid ++ [(⟨maxV, false⟩ : LNode)]).dropWhile (ltv v) = c :: rest) :
    (mid ++ [(⟨maxV, false⟩ : LNode)]).takeWhile (ltv v) ++ c :: rest =
        mid ++ [(⟨maxV, false⟩ : LNode)] ∧
      (c :: rest).dropLast ++ [(⟨maxV, false⟩ : LNode)] = c :: rest ∧
      (mid ++ [(⟨maxV, false⟩ : LNode)]).takeWhile (ltv v) ++ (c :: rest).dropLast = mid := by
  have hsplit : (mid ++ [(⟨maxV, false⟩ : LNode)]).takeWhile (ltv v) ++ c :: rest =
      mid ++ [(⟨maxV, false⟩ : LNode)] := by
    rw [← hd]; exact List.takeWhile_append_dropWhile (ltv v) _
  have hlast : (c :: rest).getLast? = some (⟨maxV, false⟩ : LNode) := by
    have h1 : ((mid ++ [(⟨maxV, false⟩ : LNode)]).takeWhile (ltv v) ++ c :: rest).getLast? =
        (c :: rest).getLast? :=
      List.getLast?_append_of_ne_nil _ (List.cons_ne_nil _ _)
    rw [hsplit, List.getLast?_concat] at h1
    exact h1.symm
  have hconc : (c :: rest).dropLast ++ [(⟨maxV, false⟩ : LNode)] = c :: rest :=
    List.dropLast_append_getLast? _ hlast
  refine ⟨hsplit, hconc, ?_⟩
  apply @List.append_cancel_right _ _ [(⟨maxV, false⟩ : LNode)] _
  rw [List.append_assoc, hconc, hsplit]

/-- Specification of `Insert` on a well-formed state for a value strictly
between the sentinels: it returns, reports whether the value was absent, does
nothing when present, and otherwise splices the value into sorted position,
bumps the `size_t` counter and preserves well-formedness. -/
lemma insert_spec {minV maxV v : Int} {s : LSet} (hWF : WFL minV maxV s)
    (hlo : minV < v) (hhi : v < maxV) :
    ∃ b s', insert s v = some (b, s') ∧ WFL minV maxV s' ∧
      (b = false ↔ v ∈ interior s) ∧
      (b = false → s' = s) ∧
      (b = true → s'.size = (s.size + 1) % sizetCard ∧ s'.unlinked = s.unlinked ∧
        (∀ w, w ∈ interior s' ↔ w ∈ interior s ∨ w = v) ∧
        (interior s').length = (interior s).length + 1) := by
  obtain ⟨⟨mid, hchain⟩, hsort, hmark⟩ := hWF
  obtain ⟨ch, unl, sz⟩ := s
  simp only at hchain
  subst hchain
  have hint : interior ⟨⟨minV, false⟩ :: (mid ++ [⟨maxV, false⟩]), unl, sz⟩ =
      mid.map LNode.elem := interior_eq mid rfl
  have hmtail : ∀ n ∈ mid ++ [(⟨maxV, false⟩ : LNode)], n.marked = false :=
    fun n hn => hmark n (List.mem_cons_of_mem _ hn)
  have hwalk := walkIns_eq v (mid ++ [⟨maxV, false⟩]) ⟨minV, false⟩ rfl hmtail
  cases hd : (mid ++ [(⟨maxV, false⟩ : LNode)]).dropWhile (ltv v) with
  | nil => exact absurd hd (stop_exists (le_of_lt hhi) mid)
  | cons c rest =>
    rw [hd] at hwalk
    have hwalk' : walkIns v ⟨minV, false⟩ (mid ++ [⟨maxV, false⟩]) =
        if c.elem = v then some (false, mid ++ [(⟨maxV, false⟩ : LNode)])
        else some (true,
          (mid ++ [(⟨maxV, false⟩ : LNode)]).takeWhile (ltv v) ++
            (⟨v, false⟩ : LNode) :: c :: rest) := by
      rw [hwalk]
    have hcv : v ≤ c.elem := stop_ge hd
    have hpw : List.Pairwise nlt (⟨minV, false⟩ :: (mid ++ [(⟨maxV, false⟩ : LNode)])) :=
      strictChain_iff_pairwise.mp hsort
    have hpwt : List.Pairwise nlt (mid ++ [(⟨maxV, false⟩ : LNode)]) :=
      (List.pairwise_cons.mp hpw).2
    have hintiff : v ∈ mid.map LNode.elem ↔ c.elem = v := by
      rw [← mem_stop hpwt hd]
      constructor
      · rintro hv
        rcases List.mem_map.mp hv with ⟨n, hn, he⟩
        exact ⟨n, List.mem_append_left _ hn, he⟩
      · rintro ⟨n, hn, he⟩
        rcases List.mem_append.mp hn with h | h
        · exact List.mem_map.mpr ⟨n, h, he⟩
        · rw [List.mem_singleton] at h
          subst h
          simp only at he
          omega
    by_cases hc : c.elem = v
    · refine ⟨false, ⟨⟨minV, false⟩ :: (mid ++ [⟨maxV, false⟩]), unl, sz⟩, ?_, ?_, ?_, ?_, ?_⟩
      · simp only [insert_cons, hwalk', if_pos hc]
      · exact ⟨⟨mid, rfl⟩, hsort, hmark⟩
      · simp [hint, hintiff, hc]
      · intro _; rfl
      · intro h; exact absurd h (by simp)
    · -- the element is absent: a new node is spliced in before the stop node
      obtain ⟨hsplit, hconc, hmid⟩ := stop_decomp hd
      refine ⟨true,
        ⟨⟨minV, false⟩ :: ((mid ++ [(⟨maxV, false⟩ : LNode)]).takeWhile (ltv v) ++
            ⟨v, false⟩ :: c :: rest), unl, (sz + 1) % sizetCard⟩, ?_, ?_, ?_, ?_, ?_⟩
      · simp only [insert_cons, hwalk', if_neg hc]
      · -- well-formedness of the new state
        have hvlt : ∀ x ∈ c :: rest, v ≤ x.elem := by
          intro x hx
          rcases List.mem_cons.mp hx with h | h
          · exact h ▸ hcv
          · have hpwc : List.Pairwise nlt (c :: rest) := by
              rw [← hd]
              exact List.Pairwise.sublist
                (List.IsSuffix.sublist (List.dropWhile_suffix (ltv v))) hpwt
            exact le_of_lt (lt_of_le_of_lt hcv ((List.pairwise_cons.mp hpwc).1 x h))
        have hpw' : List.Pairwise nlt ((⟨minV, false⟩ ::
            (mid ++ [(⟨maxV, false⟩ : LNode)]).takeWhile (ltv v)) ++
            (⟨v, false⟩ :: c :: rest)) := by
          rw [List.pairwise_append]
          refine ⟨?_, ?_, ?_⟩
          · exact List.Pairwise.sublist
              (List.Sublist.cons₂ _ (List.IsPrefix.sublist (List.takeWhile_prefix _))) hpw
          · rw [List.pairwise_cons]
            constructor
            · intro x hx
              show v < x.elem
              rcases List.mem_cons.mp hx with h | h
              · exact h ▸ lt_of_le_of_ne hcv (fun hvv => hc hvv.symm)
              · have hpwc : List.Pairwise nlt (c :: rest) := by
                  rw [← hd]
                  exact List.Pairwise.sublist
                    (List.IsSuffix.sublist (List.dropWhile_suffix (ltv v))) hpwt
                exact lt_of_le_of_lt hcv ((List.pairwise_cons.mp hpwc).1 x h)
            · rw [← hd]
              exact List.Pairwise.sublist
                (List.IsSuffix.sublist (List.dropWhile_suffix (ltv v))) hpwt
          · intro a ha b hb
            have hav : a.elem < v := by
              rcases List.mem_cons.mp ha with h | h
              · rw [h]; exact hlo
              · exact takeWhile_lt a h
            show a.elem < b.elem
            rcases List.mem_cons.mp hb with h | h
            · rw [h]; exact hav
            · exact lt_of_lt_of_le hav (hvlt b h)
        refine ⟨⟨(mid ++ [(⟨maxV, false⟩ : LNode)]).takeWhile (ltv v) ++ ⟨v, false⟩ :: (c :: rest).dropLast,
            ?_⟩, ?_, ?_⟩
        · simp only [List.cons_append, List.append_assoc, List.cons_append]
          rw [hconc]
        · exact strictChain_iff_pairwise.mpr (by simpa using hpw')
        · intro n hn
          rcases List.mem_cons.mp hn with h | h
          · rw [h]
          · rcases List.mem_append.mp h with h | h
            · exact hmtail n (List.IsPrefix.sublist (List.takeWhile_prefix _) |>.mem h)
            · rcases List.mem_cons.mp h with h | h
              · rw [h]
              · exact hmtail n
                  (List.IsSuffix.sublist (hd ▸ List.dropWhile_suffix (ltv v)) |>.mem h)
      · simp [hint, hintiff, hc]
      · intro h; exact absurd h (by simp)
      · intro _
        refine ⟨rfl, rfl, ?_, ?_⟩
        · intro w
          have hint' : interior ⟨⟨minV, false⟩ ::
              ((mid ++ [(⟨maxV, false⟩ : LNode)]).takeWhile (ltv v) ++ ⟨v, false⟩ :: c :: rest), unl,
              (sz + 1) % sizetCard⟩ =
              ((mid ++ [(⟨maxV, false⟩ : LNode)]).takeWhile (ltv v) ++
                ⟨v, false⟩ :: (c :: rest).dropLast).map LNode.elem := by
            apply interior_eq
            simp only [List.cons_append, List.append_assoc, List.cons_append]
            rw [hconc]
          rw [hint', hint]
          conv_rhs => rw [← hmid]
          simp only [List.map_append, List.map_cons, List.mem_append, List.mem_cons]
          tauto
        · have hint' : interior ⟨⟨minV, false⟩ ::
              ((mid ++ [(⟨maxV, false⟩ : LNode)]).takeWhile (ltv v) ++ ⟨v, false⟩ :: c :: rest), unl,
              (sz + 1) % sizetCard⟩ =
              ((mid ++ [(⟨maxV, false⟩ : LNode)]).takeWhile (ltv v) ++
                ⟨v, false⟩ :: (c :: rest).dropLast).map LNode.elem := by
            apply interior_eq
            simp only [List.cons_append, List.append_assoc, List.cons_append]
            rw [hconc]
          rw [hint', hint]
          have hlen : mid.length =
              ((mid ++ [(⟨maxV, false⟩ : LNode)]).takeWhile (ltv v)).length +
                (c :: rest).dropLast.length := by
            conv_lhs => rw [← hmid]
            simp
          simp only [List.length_map, List.length_append, List.length_cons]
          omega

/-- Specification of `Remove` on a well-formed state for a value strictly
between the sentinels: it returns, reports whether the value was present, does
nothing when absent, and otherwise excises the node holding the value,
decrements the `size_t` counter, moves the node (still unmarked) to the
unlinked arena nodes and preserves well-formedness. -/
lemma remove_spec {minV maxV v : Int} {s : LSet} (hWF : WFL minV maxV s)
    (hlo : minV < v) (hhi : v < maxV) :
    ∃ b s', remove s v = some (b, s') ∧ WFL minV maxV s' ∧
      (b = true ↔ v ∈ interior s) ∧
      (b = false → s' = s) ∧
      (b = true → s'.size = (s.size + (sizetCard - 1)) % sizetCard ∧
        s'.unlinked = ⟨v, false⟩ :: s.unlinked ∧
        (∀ w, w ∈ interior s' ↔ w ∈ interior s ∧ w ≠ v) ∧
        (interior s).length = (interior s').length + 1) := by
  obtain ⟨⟨mid, hchain⟩, hsort, hmark⟩ := hWF
  obtain ⟨ch, unl, sz⟩ := s
  simp only at hchain
  subst hchain
  have hint : interior ⟨⟨minV, false⟩ :: (mid ++ [⟨maxV, false⟩]), unl, sz⟩ =
      mid.map LNode.elem := interior_eq mid rfl
  have hmtail : ∀ n ∈ mid ++ [(⟨maxV, false⟩ : LNode)], n.marked = false :=
    fun n hn => hmark n (List.mem_cons_of_mem _ hn)
  have hwalk := walkRem_eq v (mid ++ [⟨maxV, false⟩]) ⟨minV, false⟩ rfl hmtail
  cases hd : (mid ++ [(⟨maxV, false⟩ : LNode)]).dropWhile (ltv v) with
  | nil => exact absurd hd (stop_exists (le_of_lt hhi) mid)
  | cons c rest =>
    rw [hd] at hwalk
    have hwalk' : walkRem v ⟨minV, false⟩ (mid ++ [⟨maxV, false⟩]) =
        if c.elem = v then
          some (true, (mid ++ [(⟨maxV, false⟩ : LNode)]).takeWhile (ltv v) ++ rest, some c)
        else some (false, mid ++ [(⟨maxV, false⟩ : LNode)], none) := by
      rw [hwalk]
    have hcv : v ≤ c.elem := stop_ge hd
    have hpw : List.Pairwise nlt (⟨minV, false⟩ :: (mid ++ [(⟨maxV, false⟩ : LNode)])) :=
      strictChain_iff_pairwise.mp hsort
    have hpwt : List.Pairwise nlt (mid ++ [(⟨maxV, false⟩ : LNode)]) :=
      (List.pairwise_cons.mp hpw).2
    have hpwc : List.Pairwise nlt (c :: rest) := by
      rw [← hd]
      exact List.Pairwise.sublist (List.IsSuffix.sublist (List.dropWhile_suffix (ltv v))) hpwt
    have hintiff : v ∈ mid.map LNode.elem ↔ c.elem = v := by
      rw [← mem_stop hpwt hd]
      constructor
      · rintro hv
        rcases List.mem_map.mp hv with ⟨n, hn, he⟩
        exact ⟨n, List.mem_append_left _ hn, he⟩
      · rintro ⟨n, hn, he⟩
        rcases List.mem_append.mp hn with h | h
        · exact List.mem_map.mpr ⟨n, h, he⟩
        · rw [List.mem_singleton] at h
          subst h
          simp only at he
          omega
    by_cases hc : c.elem = v
    · -- the element is present: its node is excised
      obtain ⟨hsplit, hconc, hmid⟩ := stop_decomp hd
      have hcnode : c = ⟨v, false⟩ := by
        have hcm : c.marked = false := by
          refine hmtail c ?_
          rw [← hsplit]
          simp
        cases c
        simp only at hc hcm
        rw [hc, hcm]
      have hrest : rest ≠ [] := by
        intro hr
        subst hr
        simp only [List.dropLast_single, List.nil_append] at hconc
        have : c.elem = maxV := by rw [← List.cons_eq_cons.mp hconc |>.1]
        omega
      have hrconc : rest.dropLast ++ [(⟨maxV, false⟩ : LNode)] = rest := by
        rw [List.dropLast_cons_of_ne_nil hrest] at hconc
        exact (List.cons_eq_cons.mp hconc).2
      have hmid' : mid = (mid ++ [(⟨maxV, false⟩ : LNode)]).takeWhile (ltv v) ++
          c :: rest.dropLast := by
        conv_lhs => rw [← hmid]
        rw [List.dropLast_cons_of_ne_nil hrest]
      refine ⟨true,
        ⟨⟨minV, false⟩ :: ((mid ++ [(⟨maxV, false⟩ : LNode)]).takeWhile (ltv v) ++ rest),
          c :: unl, (sz + (sizetCard - 1)) % sizetCard⟩, ?_, ?_, ?_, ?_, ?_⟩
      · rw [remove_cons, hwalk', if_pos hc]
        rfl
      · -- well-formedness of the new state
        refine ⟨⟨(mid ++ [(⟨maxV, false⟩ : LNode)]).takeWhile (ltv v) ++ rest.dropLast, ?_⟩,
            ?_, ?_⟩
        · rw [List.append_assoc, hrconc]
        · apply strictChain_iff_pairwise.mpr
          apply List.Pairwise.sublist _ hpw
          apply List.Sublist.cons₂
          nth_rewrite 2 [← hsplit]
          exact (List.append_sublist_append_left _).mpr (List.sublist_cons_self c rest)
        · intro n hn
          rcases List.mem_cons.mp hn with h | h
          · rw [h]
          · rcases List.mem_append.mp h with h | h
            · exact hmtail n (List.IsPrefix.sublist (List.takeWhile_prefix _) |>.mem h)
            · refine hmtail n ?_
              rw [← hsplit]
              exact List.mem_append_right _ (List.mem_cons_of_mem c h)
      · simp [hint, hintiff, hc]
      · intro h; exact absurd h (by simp)
      · intro _
        refine ⟨rfl, by rw [hcnode], ?_, ?_⟩
        · intro w
          have hint2 : interior ⟨⟨minV, false⟩ ::
              ((mid ++ [(⟨maxV, false⟩ : LNode)]).takeWhile (ltv v) ++ rest), c :: unl,
              (sz + (sizetCard - 1)) % sizetCard⟩ =
              ((mid ++ [(⟨maxV, false⟩ : LNode)]).takeWhile (ltv v) ++
                rest.dropLast).map LNode.elem := by
            apply interior_eq
            rw [List.append_assoc, hrconc]
          rw [hint2, hint]
          conv_rhs => rw [hmid']
          simp only [List.map_append, List.map_cons, List.mem_append, List.mem_cons]
          constructor
          · intro h
            rcases h with h | h
            · refine ⟨Or.inl h, ?_⟩
              rcases List.mem_map.mp h with ⟨n, hn, he⟩
              have := takeWhile_lt n hn
              omega
            · refine ⟨Or.inr (Or.inr h), ?_⟩
              rcases List.mem_map.mp h with ⟨n, hn, he⟩
              have hcn : nlt c n := (List.pairwise_cons.mp hpwc).1 n
                (List.mem_of_mem_dropLast hn)
              have : c.elem < n.elem := hcn
              omega
          · rintro ⟨h | h | h, hne⟩
            · exact Or.inl h
            · exact absurd (h ▸ hc) hne
            · exact Or.inr h
        · have hint2 : interior ⟨⟨minV, false⟩ ::
              ((mid ++ [(⟨maxV, false⟩ : LNode)]).takeWhile (ltv v) ++ rest), c :: unl,
              (sz + (sizetCard - 1)) % sizetCard⟩ =
              ((mid ++ [(⟨maxV, false⟩ : LNode)]).takeWhile (ltv v) ++
                rest.dropLast).map LNode.elem := by
            apply interior_eq
            rw [List.append_assoc, hrconc]
          rw [hint2, hint]
          conv_lhs => rw [hmid']
          have hrl : 0 < rest.length := List.length_pos.mpr hrest
          simp only [List.length_map, List.length_append, List.length_cons,
            List.length_dropLast]
          omega
    · refine ⟨false, ⟨⟨minV, false⟩ :: (mid ++ [⟨maxV, false⟩]), unl, sz⟩, ?_, ?_, ?_, ?_, ?_⟩
      · rw [remove_cons, hwalk', if_neg hc]
      · exact ⟨⟨mid, rfl⟩, hsort, hmark⟩
      · simp [hint, hintiff, hc]
      · intro _; rfl
      · intro h; exact absurd h (by simp)

/-- Specification of `Contains` on a well-formed state for a value strictly
between the sentinels: it returns exactly the membership of the value among
the live elements. -/
lemma contains_spec {minV maxV v : Int} {s : LSet} (hWF : WFL minV maxV s)
    (hlo : minV < v) (hhi : v < maxV) :
    contains s v = some (decide (v ∈ interior s)) := by
  obtain ⟨⟨mid, hchain⟩, hsort, hmark⟩ := hWF
  obtain ⟨ch, unl, sz⟩ := s
  simp only at hchain
  subst hchain
  have hint : interior ⟨⟨minV, false⟩ :: (mid ++ [⟨maxV, false⟩]), unl, sz⟩ =
      mid.map LNode.elem := interior_eq mid rfl
  have hmtail : ∀ n ∈ mid ++ [(⟨maxV, false⟩ : LNode)], n.marked = false :=
    fun n hn => hmark n (List.mem_cons_of_mem _ hn)
  have hwalk := walkCont_eq v (mid ++ [⟨maxV, false⟩])
  cases hd : (mid ++ [(⟨maxV, false⟩ : LNode)]).dropWhile (ltv v) with
  | nil => exact absurd hd (stop_exists (le_of_lt hhi) mid)
  | cons c rest =>
    rw [hd] at hwalk
    have hwalk' : walkCont v (mid ++ [⟨maxV, false⟩]) =
        some (!c.marked && decide (c.elem = v)) := by
      rw [hwalk]
    have hcm : c.marked = false := by
      refine hmtail c ?_
      exact List.IsSuffix.mem (by simp) (hd ▸ List.dropWhile_suffix (ltv v))
    have hpw : List.Pairwise nlt (⟨minV, false⟩ :: (mid ++ [(⟨maxV, false⟩ : LNode)])) :=
      strictChain_iff_pairwise.mp hsort
    have hpwt : List.Pairwise nlt (mid ++ [(⟨maxV, false⟩ : LNode)]) :=
      (List.pairwise_cons.mp hpw).2
    have hintiff : v ∈ mid.map LNode.elem ↔ c.elem = v := by
      rw [← mem_stop hpwt hd]
      constructor
      · rintro hv
        rcases List.mem_map.mp hv with ⟨n, hn, he⟩
        exact ⟨n, List.mem_append_left _ hn, he⟩
      · rintro ⟨n, hn, he⟩
        rcases List.mem_append.mp hn with h | h
        · exact List.mem_map.mpr ⟨n, h, he⟩
        · rw [List.mem_singleton] at h
          subst h
          simp only at he
          omega
    rw [contains_cons, hwalk', hcm, hint]
    simp only [Bool.not_false, Bool.true_and, Option.some.injEq]
    exact decide_eq_decide.mpr hintiff.symm

/-- Invariant of every reachable state (well-formed or not): no node — in the
chain or already unlinked — is ever marked, and every chain element is a
representable value of `T`.  In particular no operation ever stores `true`
into `marked_`. -/
lemma reach_inv {minV maxV : Int} {s : LSet} (hle : minV ≤ maxV)
    (h : ReachL minV maxV s) :
    (∀ n ∈ s.chain, n.marked = false) ∧ (∀ n ∈ s.unlinked, n.marked = false) ∧
      (∀ n ∈ s.chain, minV ≤ n.elem ∧ n.elem ≤ maxV) := by
  induction h with
  | init =>
    refine ⟨?_, ?_, ?_⟩
    · intro n hn
      simp only [initL, List.mem_cons, List.not_mem_nil, or_false] at hn
      rcases hn with h | h <;> rw [h]
    · intro n hn
      simp [initL] at hn
    · intro n hn
      simp only [initL, List.mem_cons, List.not_mem_nil, or_false] at hn
      rcases hn with h | h
      · rw [h]; exact ⟨le_refl _, hle⟩
      · rw [h]; exact ⟨hle, le_refl _⟩
  | @insStep s s' v b hre hlo hhi hop ih =>
    obtain ⟨hmc, hmu, hbd⟩ := ih
    obtain ⟨ch, unl, sz⟩ := s
    cases ch with
    | nil => simp [insert] at hop
    | cons hh tt =>
      have hmh : hh.marked = false := hmc hh (by simp)
      have hmt : ∀ n ∈ tt, n.marked = false := fun n hn => hmc n (by simp [hn])
      have hwalk := walkIns_eq v tt hh hmh hmt
      cases hdw : tt.dropWhile (ltv v) with
      | nil =>
        rw [hdw] at hwalk
        have hwalk' : walkIns v hh tt = none := by rw [hwalk]
        rw [insert_cons, hwalk'] at hop
        exact absurd hop (by simp)
      | cons c rest =>
        rw [hdw] at hwalk
        have hsub1 : ∀ x ∈ tt.takeWhile (ltv v), x ∈ tt :=
          fun x hx => (List.takeWhile_prefix (ltv v)).sublist.mem hx
        have hsub2 : ∀ x ∈ c :: rest, x ∈ tt :=
          fun x hx => (hdw ▸ List.dropWhile_suffix (ltv v)).sublist.mem hx
        by_cases hc : c.elem = v
        · have hwalk' : walkIns v hh tt = some (false, tt) := by rw [hwalk]; simp [hc]
          rw [insert_cons, hwalk'] at hop
          simp only [Option.some.injEq, Prod.mk.injEq] at hop
          rw [← hop.2]
          exact ⟨hmc, hmu, hbd⟩
        · have hwalk' : walkIns v hh tt =
              some (true, tt.takeWhile (ltv v) ++ ⟨v, false⟩ :: c :: rest) := by
            rw [hwalk]; simp [hc]
          rw [insert_cons, hwalk'] at hop
          simp only [Option.some.injEq, Prod.mk.injEq] at hop
          rw [← hop.2]
          refine ⟨?_, hmu, ?_⟩
          · intro n hn
            rcases List.mem_cons.mp hn with h | h
            · rw [h]; exact hmh
            · rcases List.mem_append.mp h with h | h
              · exact hmt n (hsub1 n h)
              · rcases List.mem_cons.mp h with h | h
                · rw [h]
                · exact hmt n (hsub2 n h)
          · intro n hn
            rcases List.mem_cons.mp hn with h | h
            · rw [h]; exact hbd hh (by simp)
            · rcases List.mem_append.mp h with h | h
              · exact hbd n (by simp [hsub1 n h])
              · rcases List.mem_cons.mp h with h | h
                · rw [h]; exact ⟨hlo, hhi⟩
                · exact hbd n (by simp [hsub2 n h])
  | @remStep s s' v b hre hlo hhi hop ih =>
    obtain ⟨hmc, hmu, hbd⟩ := ih
    obtain ⟨ch, unl, sz⟩ := s
    cases ch with
    | nil => simp [remove] at hop
    | cons hh tt =>
      have hmh : hh.marked = false := hmc hh (by simp)
      have hmt : ∀ n ∈ tt, n.marked = false := fun n hn => hmc n (by simp [hn])
      have hwalk := walkRem_eq v tt hh hmh hmt
      cases hdw : tt.dropWhile (ltv v) with
      | nil =>
        rw [hdw] at hwalk
        have hwalk' : walkRem v hh tt = none := by rw [hwalk]
        rw [remove_cons, hwalk'] at hop
        exact absurd hop (by simp)
      | cons c rest =>
        rw [hdw] at hwalk
        have hsub1 : ∀ x ∈ tt.takeWhile (ltv v), x ∈ tt :=
          fun x hx => (List.takeWhile_prefix (ltv v)).sublist.mem hx
        have hsub2 : ∀ x ∈ c :: rest, x ∈ tt :=
          fun x hx => (hdw ▸ List.dropWhile_suffix (ltv v)).sublist.mem hx
        by_cases hc : c.elem = v
        · have hwalk' : walkRem v hh tt =
              some (true, tt.takeWhile (ltv v) ++ rest, some c) := by
            rw [hwalk]; simp [hc]
          rw [remove_cons, hwalk'] at hop
          simp only [Option.some.injEq, Prod.mk.injEq] at hop
          rw [← hop.2]
          refine ⟨?_, ?_, ?_⟩
          · intro n hn
            rcases List.mem_cons.mp hn with h | h
            · rw [h]; exact hmh
            · rcases List.mem_append.mp h with h | h
              · exact hmt n (hsub1 n h)
              · exact hmt n (hsub2 n (List.mem_cons_of_mem c h))
          · intro n hn
            rcases List.mem_cons.mp hn with h | h
            · rw [h]; exact hmt c (hsub2 c (by simp))
            · exact hmu n h
          · intro n hn
            rcases List.mem_cons.mp hn with h | h
            · rw [h]; exact hbd hh (by simp)
            · rcases List.mem_append.mp h with h | h
              · exact hbd n (by simp [hsub1 n h])
              · exact hbd n (by simp [hsub2 n (List.mem_cons_of_mem c h)])
        · have hwalk' : walkRem v hh tt = some (false, tt, none) := by
            rw [hwalk]; simp [hc]
          rw [remove_cons, hwalk'] at hop
          simp only [Option.some.injEq, Prod.mk.injEq] at hop
          rw [← hop.2]
          exact ⟨hmc, hmu, hbd⟩

end OptimisticLinkedSet

lemma sizetCard_eq : sizetCard = 18446744073709551616 := by norm_num [sizetCard]

/-- `fetch_add(1)` on a counter congruent to `a` yields a counter congruent to
`a + 1`. -/
lemma mod_add_one (a : Nat) : (a % sizetCard + 1) % sizetCard = (a + 1) % sizetCard := by
  rw [sizetCard_eq]
  omega

/-- `fetch_sub(1)` on a counter congruent to `a + 1` yields a counter
congruent to `a`. -/
lemma mod_sub_one (a : Nat) :
    ((a + 1) % sizetCard + (sizetCard - 1)) % sizetCard = a % sizetCard := by
  rw [sizetCard_eq]
  omega

namespace OptimisticLinkedSet

/-- Running a trace of interior-valued calls from a well-formed state whose
counter matches its interior length modulo `2 ^ 64`: the run completes, the
final state is again such a state, and the interior length changes by exactly
the successful inserts minus the successful removals. -/
lemma run_spec {minV maxV : Int} : ∀ (ops : List SetOp) (s : LSet),
    WFL minV maxV s → s.size = (interior s).length % sizetCard →
    argsBetween minV maxV ops →
    ∃ rs s', run ops s = some (rs, s') ∧ WFL minV maxV s' ∧
      s'.size = (interior s').length % sizetCard ∧
      (interior s').length + succRem ops rs = (interior s).length + succIns ops rs := by
  intro ops
  induction ops with
  | nil =>
    intro s hWF hsz _
    exact ⟨[], s, rfl, hWF, hsz, rfl⟩
  | cons op ops ih =>
    intro s hWF hsz hargs
    cases op with
    | ins v =>
      obtain ⟨⟨h1, h2⟩, hrest⟩ := hargs
      obtain ⟨b, s₁, hop, hWF₁, hmem, hfalse, htrue⟩ := insert_spec hWF h1 h2
      have hsz₁ : s₁.size = (interior s₁).length % sizetCard := by
        cases b with
        | false => rw [hfalse rfl]; exact hsz
        | true =>
          obtain ⟨ha, _, _, hlen⟩ := htrue rfl
          rw [ha, hlen, hsz, mod_add_one]
      obtain ⟨rs, s', hrun, hWF', hsz', hcount⟩ := ih s₁ hWF₁ hsz₁ hrest
      refine ⟨SetRes.rb b :: rs, s', ?_, hWF', hsz', ?_⟩
      · show run (SetOp.ins v :: ops) s = _
        simp [run, step, hop, hrun]
      · cases b with
        | false =>
          rw [hfalse rfl] at hcount
          simpa [succIns, succRem] using hcount
        | true =>
          obtain ⟨_, _, _, hlen⟩ := htrue rfl
          rw [hlen] at hcount
          simp only [succIns, succRem]
          omega
    | rem v =>
      obtain ⟨⟨h1, h2⟩, hrest⟩ := hargs
      obtain ⟨b, s₁, hop, hWF₁, hmem, hfalse, htrue⟩ := remove_spec hWF h1 h2
      have hsz₁ : s₁.size = (interior s₁).length % sizetCard := by
        cases b with
        | false => rw [hfalse rfl]; exact hsz
        | true =>
          obtain ⟨ha, _, _, hlen⟩ := htrue rfl
          rw [ha, hsz, hlen, mod_sub_one]
      obtain ⟨rs, s', hrun, hWF', hsz', hcount⟩ := ih s₁ hWF₁ hsz₁ hrest
      refine ⟨SetRes.rb b :: rs, s', ?_, hWF', hsz', ?_⟩
      · show run (SetOp.rem v :: ops) s = _
        simp [run, step, hop, hrun]
      · cases b with
        | false =>
          rw [hfalse rfl] at hcount
          simpa [succIns, succRem] using hcount
        | true =>
          obtain ⟨_, _, _, hlen⟩ := htrue rfl
          simp only [succIns, succRem]
          omega
    | qry v =>
      obtain ⟨⟨h1, h2⟩, hrest⟩ := hargs
      have hop := contains_spec hWF h1 h2
      obtain ⟨rs, s', hrun, hWF', hsz', hcount⟩ := ih s hWF hsz hrest
      refine ⟨SetRes.rb (decide (v ∈ interior s)) :: rs, s', ?_, hWF', hsz', ?_⟩
      · show run (SetOp.qry v :: ops) s = _
        simp [run, step, hop, hrun]
      · simpa [succIns, succRem] using hcount
    | siz =>
      obtain ⟨rs, s', hrun, hWF', hsz', hcount⟩ := ih s hWF hsz hargs
      refine ⟨SetRes.rn (size s) :: rs, s', ?_, hWF', hsz', ?_⟩
      · show run (SetOp.siz :: ops) s = _
        simp [run, step, hrun]
      · simpa [succIns, succRem] using hcount

end OptimisticLinkedSet

namespace StripedHashSet

lemma getD_replicate_self (n i : Nat) : (List.replicate n ([] : List Int)).getD i [] = [] := by
  rw [List.getD_eq_getElem?_getD, List.getElem?_replicate]
  by_cases h : i < n <;> simp [h]

lemma mem_flatten_of_getD {l : List (List Int)} {i : Nat} {v : Int}
    (h : v ∈ l.getD i []) : v ∈ l.flatten := by
  by_cases hi : i < l.length
  · rw [List.getD_eq_getElem _ _ hi] at h
    exact List.mem_flatten.mpr ⟨l[i], List.getElem_mem hi, h⟩
  · rw [List.getD_eq_getElem?_getD, List.getElem?_eq_none (le_of_not_lt hi)] at h
    exact absurd h (by simp)

lemma getD_set_self (l : List (List Int)) {i : Nat} (hi : i < l.length) (b : List Int) :
    (l.set i b).getD i [] = b := by
  simp only [List.getD_eq_getElem?_getD, List.getElem?_set]
  simp [hi]

lemma getD_set_ne (l : List (List Int)) {i j : Nat} (hne : i ≠ j) (b : List Int) :
    (l.set i b).getD j [] = l.getD j [] := by
  simp only [List.getD_eq_getElem?_getD, List.getElem?_set]
  simp [hne]

/-- `push_front` into one bucket permutes the table contents by one cons. -/
lemma flatten_set_cons_perm (x : Int) :
    ∀ (l : List (List Int)) (i : Nat), i < l.length →
      (l.set i (x :: l.getD i [])).flatten.Perm (x :: l.flatten) := by
  intro l
  induction l with
  | nil => intro i hi; exact absurd hi (by simp)
  | cons hd tl ih =>
    intro i hi
    cases i with
    | zero => exact List.Perm.refl _
    | succ i =>
      have hi' : i < tl.length := by simpa using hi
      have h1 := ih i hi'
      have hset : (hd :: tl).set (i + 1) (x :: (hd :: tl).getD (i + 1) []) =
          hd :: tl.set i (x :: tl.getD i []) := by simp
      rw [hset]
      show (hd ++ (tl.set i (x :: tl.getD i [])).flatten).Perm (x :: (hd ++ tl.flatten))
      exact (List.Perm.append_left hd h1).trans List.perm_middle

lemma placeItems_cons (hash : Int → Nat) (n : Nat) (x : Int) (xs : List Int)
    (temp : List (List Int)) :
    placeItems hash n (x :: xs) temp =
      placeItems hash n xs (temp.set (hash x % n) (x :: temp.getD (hash x % n) [])) := rfl

lemma placeItems_length (hash : Int → Nat) (n : Nat) :
    ∀ (items : List Int) (temp : List (List Int)),
      (placeItems hash n items temp).length = temp.length := by
  intro items
  induction items with
  | nil => intro temp; rfl
  | cons x xs ih =>
    intro temp
    show (placeItems hash n xs _).length = _
    rw [ih]
    simp

/-- The rehash loop permutes its input items into the new table. -/
lemma placeItems_flatten_perm (hash : Int → Nat) (n : Nat) (hn : 0 < n) :
    ∀ (items : List Int) (temp : List (List Int)), temp.length = n →
      (placeItems hash n items temp).flatten.Perm (items ++ temp.flatten) := by
  intro items
  induction items with
  | nil => intro temp _; exact List.Perm.refl _
  | cons x xs ih =>
    intro temp hlen
    have hbi : hash x % n < temp.length := by rw [hlen]; exact Nat.mod_lt _ hn
    have h1 := ih (temp.set (hash x % n) (x :: temp.getD (hash x % n) []))
      (by simp [hlen])
    have h2 : (temp.set (hash x % n) (x :: temp.getD (hash x % n) [])).flatten.Perm
        (x :: temp.flatten) := flatten_set_cons_perm x temp _ hbi
    exact h1.trans ((List.Perm.append_left xs h2).trans List.perm_middle)

/-- The rehash loop keeps every element in the bucket its hash selects. -/
lemma placeItems_placed (hash : Int → Nat) (n : Nat) :
    ∀ (items : List Int) (temp : List (List Int)), temp.length = n →
      (∀ i, i < n → ∀ v ∈ temp.getD i [], hash v % n = i) →
      ∀ i, i < n → ∀ v ∈ (placeItems hash n items temp).getD i [], hash v % n = i := by
  intro items
  induction items with
  | nil => intro temp _ h; exact h
  | cons x xs ih =>
    intro temp hlen hp
    rw [placeItems_cons]
    refine ih _ (by simp [hlen]) ?_
    intro i hi v hv
    by_cases hx : hash x % n = i
    · rw [hx, getD_set_self temp (by rw [hlen]; exact hi)] at hv
      rcases List.mem_cons.mp hv with h | h
      · rw [h, hx]
      · exact hp i hi v h
    · rw [getD_set_ne temp hx] at hv
      exact hp i hi v hv

/-- The rehash loop keeps each bucket duplicate-free as long as the items and
the table contents are globally duplicate-free. -/
lemma placeItems_nodup (hash : Int → Nat) (n : Nat) (hn : 0 < n) :
    ∀ (items : List Int) (temp : List (List Int)), temp.length = n →
      (items ++ temp.flatten).Nodup →
      (∀ i, (temp.getD i []).Nodup) →
      ∀ i, ((placeItems hash n items temp).getD i []).Nodup := by
  intro items
  induction items with
  | nil => intro temp _ _ h; exact h
  | cons x xs ih =>
    intro temp hlen hnd hbnd
    have hbi : hash x % n < temp.length := by rw [hlen]; exact Nat.mod_lt _ hn
    have hxall : x ∉ xs ++ temp.flatten := (List.nodup_cons.mp hnd).1
    have hperm2 : (xs ++ (temp.set (hash x % n)
        (x :: temp.getD (hash x % n) [])).flatten).Perm (x :: (xs ++ temp.flatten)) :=
      (List.Perm.append_left xs (flatten_set_cons_perm x temp _ hbi)).trans List.perm_middle
    rw [placeItems_cons]
    refine ih _ (by simp [hlen]) (hperm2.nodup_iff.mpr hnd) ?_
    intro i
    by_cases hx : hash x % n = i
    · rw [hx] at hbi ⊢
      rw [getD_set_self temp (hx ▸ hbi)]
      refine List.Nodup.cons ?_ (hbnd i)
      intro hmem
      exact hxall (List.mem_append_right xs (mem_flatten_of_getD hmem))
    · rw [getD_set_ne temp hx]
      exact hbnd i

/-- The sum of all bucket lengths is the number of stored elements. -/
lemma sumLen_eq_length (s : State) : sumLen s = (elems s).length := by
  rw [sumLen, elems, List.length_flatten]

lemma Rehash_of_le {hash : Int → Nat} {s : State} (h : GetLoadFactor s ≤ s.maxLoad) :
    Rehash hash s = s := by
  simp [Rehash, h]

/-- Under the placement and per-bucket invariants the whole table is
duplicate-free. -/
lemma elems_nodup {hash : Int → Nat} {s : State} (hInv : Inv hash s) :
    (elems s).Nodup := by
  unfold elems
  rw [List.nodup_flatten]
  constructor
  · intro l hl
    rcases List.mem_iff_getElem.mp hl with ⟨i, hi, rfl⟩
    have := hInv.nodup i
    rwa [List.getD_eq_getElem _ _ hi] at this
  · rw [List.pairwise_iff_getElem]
    intro i j hi hj hij v hvi hvj
    have h1 := hInv.placed i hi v (by rwa [List.getD_eq_getElem _ _ hi])
    have h2 := hInv.placed j hj v (by rwa [List.getD_eq_getElem _ _ hj])
    omega

/-- Under the invariant an element occurs in the table iff it occurs in the
bucket its hash selects — the bucket every operation scans. -/
lemma mem_elems_iff {hash : Int → Nat} {s : State} (hInv : Inv hash s) (v : Int) :
    v ∈ elems s ↔ v ∈ s.buckets.getD (hash v % s.buckets.length) [] := by
  constructor
  · intro h
    rcases List.mem_flatten.mp h with ⟨b, hb, hvb⟩
    rcases List.mem_iff_getElem.mp hb with ⟨i, hi, rfl⟩
    have hp := hInv.placed i hi v (by rwa [List.getD_eq_getElem _ _ hi])
    rw [hp, List.getD_eq_getElem _ _ hi]
    exact hvb
  · exact mem_flatten_of_getD

/-- Full specification of `Rehash` on an over-threshold table: the table is
rebuilt with `capacity * growth_factor` buckets holding a permutation of the
old elements, each in the bucket its hash selects modulo the new capacity;
the counter and configuration are untouched. -/
lemma Rehash_spec {hash : Int → Nat} {s : State} (hcap : 1 ≤ s.buckets.length)
    (hg : 1 ≤ s.growth) (hover : s.maxLoad < GetLoadFactor s) :
    (Rehash hash s).buckets.length = s.buckets.length * s.growth ∧
      (Rehash hash s).size = s.size ∧
      (Rehash hash s).growth = s.growth ∧
      (Rehash hash s).maxLoad = s.maxLoad ∧
      (Rehash hash s).numStripes = s.numStripes ∧
      (elems (Rehash hash s)).Perm (elems s) ∧
      (∀ i, i < s.buckets.length * s.growth →
        ∀ v ∈ (Rehash hash s).buckets.getD i [],
          hash v % (s.buckets.length * s.growth) = i) ∧
      ((elems s).Nodup → ∀ i, ((Rehash hash s).buckets.getD i []).Nodup) := by
  have hnp : 0 < s.buckets.length * s.growth := Nat.mul_pos hcap hg
  have hre : Rehash hash s = { s with
      buckets := placeItems hash (s.buckets.length * s.growth) s.buckets.flatten
        (List.replicate (s.buckets.length * s.growth) []) } := by
    rw [Rehash, if_neg (not_le.mpr hover)]
  rw [hre]
  refine ⟨?_, rfl, rfl, rfl, rfl, ?_, ?_, ?_⟩
  · simp [placeItems_length]
  · have := placeItems_flatten_perm hash _ hnp s.buckets.flatten
      (List.replicate (s.buckets.length * s.growth) []) (by simp)
    simpa [elems] using this
  · intro i hi v hv
    refine placeItems_placed hash _ _ _ (by simp) ?_ i hi v hv
    intro j hj w hw
    rw [getD_replicate_self] at hw
    exact absurd hw (by simp)
  · intro hnd i
    refine placeItems_nodup hash _ hnp _ _ (by simp) ?_ ?_ i
    · simpa [elems] using hnd
    · intro j
      rw [getD_replicate_self]
      exact List.nodup_nil

/-- `Rehash` preserves the invariant and the stored elements; if the table
was over threshold the capacity at least doubles (growth factor is at least
two under the invariant). -/
lemma Rehash_inv {hash : Int → Nat} {s : State} (hInv : Inv hash s) :
    Inv hash (Rehash hash s) ∧ (elems (Rehash hash s)).Perm (elems s) ∧
      (Rehash hash s).size = s.size ∧ (Rehash hash s).maxLoad = s.maxLoad ∧
      (Rehash hash s).growth = s.growth ∧ (Rehash hash s).numStripes = s.numStripes ∧
      (s.maxLoad < GetLoadFactor s →
        2 * s.buckets.length ≤ (Rehash hash s).buckets.length) := by
  by_cases hover : GetLoadFactor s ≤ s.maxLoad
  · rw [Rehash_of_le hover]
    exact ⟨hInv, List.Perm.refl _, rfl, rfl, rfl, rfl,
      fun h => absurd h (not_lt.mpr hover)⟩
  · have hover' : s.maxLoad < GetLoadFactor s := not_le.mp hover
    obtain ⟨hlen, hsz, hgr, hml, hns, hperm, hplaced, hnd⟩ :=
      Rehash_spec hInv.capPos (le_trans (by norm_num) hInv.growth2) hover'
    refine ⟨⟨?_, ?_, ?_, ?_, ?_⟩, hperm, hsz, hml, hgr, hns, ?_⟩
    · rw [hlen]
      exact le_trans hInv.capPos (Nat.le_mul_of_pos_right _
        (lt_of_lt_of_le (by norm_num) hInv.growth2))
    · rw [hgr]; exact hInv.growth2
    · rw [hlen]; exact hplaced
    · exact hnd (elems_nodup hInv)
    · rw [hsz, hperm.length_eq, hInv.sizeEq]
    · intro _
      rw [hlen, Nat.mul_comm]
      exact Nat.mul_le_mul_left s.buckets.length hInv.growth2

lemma Insert_succ (hash : Int → Nat) (fuel : Nat) (s : State) (v : Int) :
    Insert hash (fuel + 1) s v =
      (if v ∈ s.buckets.getD (GetBucketIndex s (hash v)) [] then some (false, s)
       else if s.maxLoad < GetLoadFactor s then Insert hash fuel (Rehash hash s) v
       else some (true, { s with
          buckets := s.buckets.set (GetBucketIndex s (hash v))
            (v :: s.buckets.getD (GetBucketIndex s (hash v)) []),
          size := (s.size + 1) % sizetCard })) := rfl

lemma length_flatten_set (b : List Int) :
    ∀ (l : List (List Int)) (i : Nat), i < l.length →
      (l.set i b).flatten.length + (l.getD i []).length = l.flatten.length + b.length := by
  intro l
  induction l with
  | nil => intro i hi; exact absurd hi (by simp)
  | cons hd tl ih =>
    intro i hi
    cases i with
    | zero => simp; omega
    | succ i =>
      have hi' : i < tl.length := by simpa using hi
      have := ih i hi'
      simp only [List.set_cons_succ, List.flatten_cons, List.length_append,
        List.getD_cons_succ]
      omega

/-- The no-rehash insert path: prepend to the selected bucket and bump the
counter.  Packaged separately because `Insert` reaches it both directly and
after rehashing. -/
lemma Insert_direct {hash : Int → Nat} {s : State} {v : Int} (hInv : Inv hash s)
    (hv : v ∉ s.buckets.getD (GetBucketIndex s (hash v)) []) :
    ∃ s', s' = { s with
        buckets := s.buckets.set (GetBucketIndex s (hash v))
          (v :: s.buckets.getD (GetBucketIndex s (hash v)) []),
        size := (s.size + 1) % sizetCard } ∧
      Inv hash s' ∧ s'.growth = s.growth ∧ s'.maxLoad = s.maxLoad ∧
      s'.numStripes = s.numStripes ∧
      (∀ w, w ∈ elems s' ↔ w ∈ elems s ∨ w = v) ∧
      (elems s').length = (elems s).length + 1 ∧
      (elems s').count v = 1 ∧
      s'.size = (s.size + 1) % sizetCard ∧
      (s'.buckets.getD (hash v % s'.buckets.length) []).head? = some v := by
  have hbi : GetBucketIndex s (hash v) < s.buckets.length := Nat.mod_lt _ hInv.capPos
  have hperm : (s.buckets.set (GetBucketIndex s (hash v))
      (v :: s.buckets.getD (GetBucketIndex s (hash v)) [])).flatten.Perm
      (v :: elems s) := flatten_set_cons_perm v s.buckets _ hbi
  have hvelems : v ∉ elems s := fun h => hv ((mem_elems_iff hInv v).mp h)
  refine ⟨_, rfl, ?_, rfl, rfl, rfl, ?_, ?_, ?_, rfl, ?_⟩
  · refine ⟨?_, hInv.growth2, ?_, ?_, ?_⟩
    · dsimp only
      simpa using hInv.capPos
    · intro i hi w hw
      dsimp only at hi hw ⊢
      rw [List.length_set] at hi ⊢
      by_cases hx : GetBucketIndex s (hash v) = i
      · rw [← hx] at hw ⊢
        rw [getD_set_self s.buckets hbi] at hw
        rcases List.mem_cons.mp hw with h | h
        · rw [h]; rfl
        · exact hInv.placed _ hbi w h
      · rw [getD_set_ne s.buckets hx] at hw
        exact hInv.placed i hi w hw
    · intro i
      dsimp only
      by_cases hx : GetBucketIndex s (hash v) = i
      · rw [← hx, getD_set_self s.buckets hbi]
        exact List.Nodup.cons hv (hInv.nodup _)
      · rw [getD_set_ne s.buckets hx]
        exact hInv.nodup i
    · show (s.size + 1) % sizetCard = _
      rw [show elems { s with
          buckets := s.buckets.set (GetBucketIndex s (hash v))
            (v :: s.buckets.getD (GetBucketIndex s (hash v)) []),
          size := (s.size + 1) % sizetCard } =
        (s.buckets.set (GetBucketIndex s (hash v))
          (v :: s.buckets.getD (GetBucketIndex s (hash v)) [])).flatten from rfl]
      rw [hperm.length_eq, List.length_cons, hInv.sizeEq, mod_add_one]
  · intro w
    rw [show elems { s with
        buckets := s.buckets.set (GetBucketIndex s (hash v))
          (v :: s.buckets.getD (GetBucketIndex s (hash v)) []),
        size := (s.size + 1) % sizetCard } =
      (s.buckets.set (GetBucketIndex s (hash v))
        (v :: s.buckets.getD (GetBucketIndex s (hash v)) [])).flatten from rfl]
    rw [hperm.mem_iff, List.mem_cons]
    tauto
  · rw [show elems { s with
        buckets := s.buckets.set (GetBucketIndex s (hash v))
          (v :: s.buckets.getD (GetBucketIndex s (hash v)) []),
        size := (s.size + 1) % sizetCard } =
      (s.buckets.set (GetBucketIndex s (hash v))
        (v :: s.buckets.getD (GetBucketIndex s (hash v)) [])).flatten from rfl]
    rw [hperm.length_eq, List.length_cons]
  · rw [show elems { s with
        buckets := s.buckets.set (GetBucketIndex s (hash v))
          (v :: s.buckets.getD (GetBucketIndex s (hash v)) []),
        size := (s.size + 1) % sizetCard } =
      (s.buckets.set (GetBucketIndex s (hash v))
        (v :: s.buckets.getD (GetBucketIndex s (hash v)) [])).flatten from rfl]
    rw [hperm.count_eq, List.count_cons_self, List.count_eq_zero.mpr hvelems]
  · dsimp only
    rw [List.length_set]
    rw [show hash v % s.buckets.length = GetBucketIndex s (hash v) from rfl]
    rw [getD_set_self s.buckets hbi]
    rfl

/-- Full specification of the recursive `Insert` under the invariant, by
induction on the fuel: with `size < capacity * 2 ^ fuel` the recursion
terminates, it reports presence of the element, leaves everything unchanged
when the element is present, and otherwise (after the necessary rehashes)
prepends the element to the bucket its hash selects, stores it exactly once,
and bumps the counter by one. -/
lemma Insert_go {hash : Int → Nat} (v : Int) :
    ∀ (fuel : Nat) (s : State), Inv hash s →
      s.size < s.buckets.length * 2 ^ fuel →
      ∃ b s', Insert hash (fuel + 1) s v = some (b, s') ∧ Inv hash s' ∧
        s'.growth = s.growth ∧ s'.maxLoad = s.maxLoad ∧ s'.numStripes = s.numStripes ∧
        (b = false ↔ v ∈ elems s) ∧
        (b = false → s' = s) ∧
        (b = true → (∀ w, w ∈ elems s' ↔ w ∈ elems s ∨ w = v) ∧
          (elems s').length = (elems s).length + 1 ∧
          (elems s').count v = 1 ∧
          s'.size = (s.size + 1) % sizetCard ∧
          (s'.buckets.getD (hash v % s'.buckets.length) []).head? = some v) := by
  intro fuel
  induction fuel with
  | zero =>
    intro s hInv hsz
    rw [Nat.pow_zero, Nat.mul_one] at hsz
    have hlf : GetLoadFactor s = 0 := Nat.div_eq_of_lt hsz
    by_cases hv : v ∈ s.buckets.getD (GetBucketIndex s (hash v)) []
    · refine ⟨false, s, ?_, hInv, rfl, rfl, rfl, ?_, fun _ => rfl, ?_⟩
      · rw [Insert_succ, if_pos hv]
      · simpa [mem_elems_iff hInv v, GetBucketIndex] using hv
      · intro h; exact absurd h (by simp)
    · have hover : ¬ s.maxLoad < GetLoadFactor s := by
        rw [hlf]; exact Nat.not_lt_zero _
      obtain ⟨s', hs', hInv', hg', hml', hns', hmem', hlen', hcnt', hsz', hhd'⟩ :=
        Insert_direct hInv hv
      refine ⟨true, s', ?_, hInv', hg', hml', hns', ?_, ?_, ?_⟩
      · rw [Insert_succ, if_neg hv, if_neg hover, hs']
      · constructor
        · intro h; exact absurd h (by simp)
        · intro h; exact absurd ((mem_elems_iff hInv v).mp h) hv
      · intro h; exact absurd h (by simp)
      · intro _; exact ⟨hmem', hlen', hcnt', hsz', hhd'⟩
  | succ fuel ih =>
    intro s hInv hsz
    by_cases hv : v ∈ s.buckets.getD (GetBucketIndex s (hash v)) []
    · refine ⟨false, s, ?_, hInv, rfl, rfl, rfl, ?_, fun _ => rfl, ?_⟩
      · rw [Insert_succ, if_pos hv]
      · simpa [mem_elems_iff hInv v, GetBucketIndex] using hv
      · intro h; exact absurd h (by simp)
    · by_cases hover : s.maxLoad < GetLoadFactor s
      · -- over threshold: rehash, then retry with one unit of fuel less
        obtain ⟨hInv₁, hperm, hsz₁, hml₁, hg₁, hns₁, hgrow⟩ := Rehash_inv hInv
        have hsz' : (Rehash hash s).size < (Rehash hash s).buckets.length * 2 ^ fuel := by
          rw [hsz₁]
          calc s.size < s.buckets.length * 2 ^ (fuel + 1) := hsz
            _ = 2 * s.buckets.length * 2 ^ fuel := by ring
            _ ≤ (Rehash hash s).buckets.length * 2 ^ fuel :=
                Nat.mul_le_mul_right _ (hgrow hover)
        obtain ⟨b, s', hrun, hInv', hg', hml', hns', hmem, hfalse, htrue⟩ :=
          ih (Rehash hash s) hInv₁ hsz'
        have hvnot : v ∉ elems s := fun h => hv ((mem_elems_iff hInv v).mp h)
        have hb : b = true := by
          cases b with
          | true => rfl
          | false => exact absurd (hperm.mem_iff.mp (hmem.mp rfl)) hvnot
        subst hb
        obtain ⟨hm, hl, hc, hs, hh⟩ := htrue rfl
        refine ⟨true, s', ?_, hInv', ?_, ?_, ?_, ?_, ?_, ?_⟩
        · rw [Insert_succ, if_neg hv, if_pos hover]
          exact hrun
        · rw [hg', hg₁]
        · rw [hml', hml₁]
        · rw [hns', hns₁]
        · constructor
          · intro h; exact absurd h (by simp)
          · intro h; exact absurd h hvnot
        · intro h; exact absurd h (by simp)
        · intro _
          refine ⟨?_, ?_, hc, ?_, hh⟩
          · intro w
            rw [hm w, hperm.mem_iff]
          · rw [hl, hperm.length_eq]
          · rw [hs, hsz₁]
      · -- under threshold: the direct insert path
        obtain ⟨s', hs', hInv', hg', hml', hns', hmem', hlen', hcnt', hsz', hhd'⟩ :=
          Insert_direct hInv hv
        refine ⟨true, s', ?_, hInv', hg', hml', hns', ?_, ?_, ?_⟩
        · rw [Insert_succ, if_neg hv, if_neg hover, hs']
        · constructor
          · intro h; exact absurd h (by simp)
          · intro h; exact absurd ((mem_elems_iff hInv v).mp h) hv
        · intro h; exact absurd h (by simp)
        · intro _; exact ⟨hmem', hlen', hcnt', hsz', hhd'⟩

/-- `Insert` as called by the code, with its fuel shown sufficient under the
invariant (growth factor at least two). -/
lemma InsertTop_spec {hash : Int → Nat} {s : State} (hInv : Inv hash s) (v : Int) :
    ∃ b s', InsertTop hash s v = some (b, s') ∧ Inv hash s' ∧
      s'.growth = s.growth ∧ s'.maxLoad = s.maxLoad ∧ s'.numStripes = s.numStripes ∧
      (b = false ↔ v ∈ elems s) ∧
      (b = false → s' = s) ∧
      (b = true → (∀ w, w ∈ elems s' ↔ w ∈ elems s ∨ w = v) ∧
        (elems s').length = (elems s).length + 1 ∧
        (elems s').count v = 1 ∧
        s'.size = (s.size + 1) % sizetCard ∧
        (s'.buckets.getD (hash v % s'.buckets.length) []).head? = some v) := by
  have hfuel : s.size < s.buckets.length * 2 ^ (s.size + 1) := by
    calc s.size < 2 ^ s.size := Nat.lt_two_pow _
      _ ≤ 2 ^ (s.size + 1) := Nat.pow_le_pow_right (by norm_num) (Nat.le_succ _)
      _ ≤ s.buckets.length * 2 ^ (s.size + 1) :=
          Nat.le_mul_of_pos_left _ hInv.capPos
  exact Insert_go v (s.size + 1) s hInv hfuel

/-- Specification of `Remove` under the invariant: it reports presence, does
nothing when the element is absent, and otherwise deletes it from its bucket
and decrements the counter. -/
lemma Remove_spec {hash : Int → Nat} {s : State} (hInv : Inv hash s) (v : Int) :
    ∃ b s', Remove hash s v = (b, s') ∧ Inv hash s' ∧
      s'.growth = s.growth ∧ s'.maxLoad = s.maxLoad ∧ s'.numStripes = s.numStripes ∧
      (b = true ↔ v ∈ elems s) ∧
      (b = false → s' = s) ∧
      (b = true → (∀ w, w ∈ elems s' ↔ w ∈ elems s ∧ w ≠ v) ∧
        (elems s).length = (elems s').length + 1 ∧
        s'.size = (s.size + (sizetCard - 1)) % sizetCard) := by
  by_cases hv : v ∈ s.buckets.getD (GetBucketIndex s (hash v)) []
  · have hbi : GetBucketIndex s (hash v) < s.buckets.length := Nat.mod_lt _ hInv.capPos
    have hre : Remove hash s v = (true, { s with
        buckets := s.buckets.set (GetBucketIndex s (hash v))
          ((s.buckets.getD (GetBucketIndex s (hash v)) []).filter (fun x => x ≠ v)),
        size := (s.size + (sizetCard - 1)) % sizetCard }) := by
      simp only [Remove, if_pos hv]
    have hfcong : (s.buckets.getD (GetBucketIndex s (hash v)) []).filter
          (fun x => decide (x ≠ v)) =
        (s.buckets.getD (GetBucketIndex s (hash v)) []).filter (fun x => x != v) := by
      apply List.filter_congr
      intro x _
      by_cases h : x = v <;> simp [h]
    have hlenf : ((s.buckets.getD (GetBucketIndex s (hash v)) []).filter
          (fun x => decide (x ≠ v))).length + 1 =
        (s.buckets.getD (GetBucketIndex s (hash v)) []).length := by
      rw [hfcong, ← List.Nodup.erase_eq_filter (hInv.nodup _) v,
        List.length_erase_of_mem hv]
      have : 0 < (s.buckets.getD (GetBucketIndex s (hash v)) []).length :=
        List.length_pos.mpr (by intro h; rw [h] at hv; exact absurd hv (by simp))
      omega
    have hflat := length_flatten_set
      ((s.buckets.getD (GetBucketIndex s (hash v)) []).filter (fun x => decide (x ≠ v)))
      s.buckets (GetBucketIndex s (hash v)) hbi
    have hlen : (elems s).length = (elems { s with
        buckets := s.buckets.set (GetBucketIndex s (hash v))
          ((s.buckets.getD (GetBucketIndex s (hash v)) []).filter (fun x => x ≠ v)),
        size := (s.size + (sizetCard - 1)) % sizetCard }).length + 1 := by
      show s.buckets.flatten.length = (s.buckets.set (GetBucketIndex s (hash v))
        ((s.buckets.getD (GetBucketIndex s (hash v)) []).filter
          (fun x => decide (x ≠ v)))).flatten.length + 1
      omega
    have hInv' : Inv hash { s with
        buckets := s.buckets.set (GetBucketIndex s (hash v))
          ((s.buckets.getD (GetBucketIndex s (hash v)) []).filter (fun x => x ≠ v)),
        size := (s.size + (sizetCard - 1)) % sizetCard } := by
      refine ⟨?_, hInv.growth2, ?_, ?_, ?_⟩
      · dsimp only
        simpa using hInv.capPos
      · intro i hi w hw
        dsimp only at hi hw ⊢
        rw [List.length_set] at hi ⊢
        by_cases hx : GetBucketIndex s (hash v) = i
        · rw [← hx] at hw ⊢
          rw [getD_set_self s.buckets hbi] at hw
          exact hInv.placed _ hbi w (List.mem_of_mem_filter hw)
        · rw [getD_set_ne s.buckets hx] at hw
          exact hInv.placed i hi w hw
      · intro i
        dsimp only
        by_cases hx : GetBucketIndex s (hash v) = i
        · rw [← hx, getD_set_self s.buckets hbi]
          exact List.Nodup.filter _ (hInv.nodup _)
        · rw [getD_set_ne s.buckets hx]
          exact hInv.nodup i
      · show (s.size + (sizetCard - 1)) % sizetCard =
          (s.buckets.set (GetBucketIndex s (hash v))
            ((s.buckets.getD (GetBucketIndex s (hash v)) []).filter
              (fun x => decide (x ≠ v)))).flatten.length % sizetCard
        have hl2 : s.buckets.flatten.length = (s.buckets.set (GetBucketIndex s (hash v))
            ((s.buckets.getD (GetBucketIndex s (hash v)) []).filter
              (fun x => decide (x ≠ v)))).flatten.length + 1 := by omega
        rw [hInv.sizeEq]
        show (s.buckets.flatten.length % sizetCard + (sizetCard - 1)) % sizetCard = _
        rw [hl2, mod_sub_one]
    refine ⟨true, _, hre, hInv', rfl, rfl, rfl, ?_, ?_, ?_⟩
    · constructor
      · intro _; exact (mem_elems_iff hInv v).mpr hv
      · intro _; rfl
    · intro h; exact absurd h (by simp)
    · intro _
      refine ⟨?_, hlen, rfl⟩
      intro w
      rw [mem_elems_iff hInv' w, mem_elems_iff hInv w]
      show w ∈ (s.buckets.set (GetBucketIndex s (hash v))
          ((s.buckets.getD (GetBucketIndex s (hash v)) []).filter
            (fun x => decide (x ≠ v)))).getD
          (hash w % (s.buckets.set (GetBucketIndex s (hash v))
            ((s.buckets.getD (GetBucketIndex s (hash v)) []).filter
              (fun x => decide (x ≠ v)))).length) [] ↔ _
      rw [List.length_set]
      by_cases hx : GetBucketIndex s (hash v) = hash w % s.buckets.length
      · rw [← hx, getD_set_self s.buckets hbi]
        simp only [List.mem_filter, decide_eq_true_eq]
      · rw [getD_set_ne s.buckets hx]
        constructor
        · intro h
          refine ⟨h, ?_⟩
          intro hwv
          rw [hwv] at hx
          exact hx rfl
        · exact fun h => h.1
  · refine ⟨false, s, ?_, hInv, rfl, rfl, rfl, ?_, fun _ => rfl, ?_⟩
    · simp only [Remove, if_neg hv]
    · constructor
      · intro h; exact absurd h (by simp)
      · intro h; exact absurd ((mem_elems_iff hInv v).mp h) hv
    · intro h; exact absurd h (by simp)

/-- `Contains` under the invariant is exactly membership. -/
lemma Contains_spec {hash : Int → Nat} {s : State} (hInv : Inv hash s) (v : Int) :
    Contains hash s v = decide (v ∈ elems s) := by
  unfold Contains
  exact decide_eq_decide.mpr (mem_elems_iff hInv v).symm

/-- The constructor establishes the invariant for any concurrency level at
least one and growth factor at least two. -/
lemma Inv_construct (hash : Int → Nat) {c g : Nat} (q : ℚ) (hc : 1 ≤ c) (hg : 2 ≤ g) :
    Inv hash (construct c g q) := by
  refine ⟨?_, hg, ?_, ?_, ?_⟩
  · simpa [construct] using hc
  · intro i hi w hw
    rw [show (construct c g q).buckets = List.replicate c [] from rfl,
      getD_replicate_self] at hw
    exact absurd hw (by simp)
  · intro i
    rw [show (construct c g q).buckets = List.replicate c [] from rfl,
      getD_replicate_self]
    exact List.nodup_nil
  · show 0 = _
    rw [show elems (construct c g q) = (List.replicate c ([] : List Int)).flatten from rfl]
    simp

/-- Running any trace from an invariant state of the striped set: the run
completes and the element count changes by exactly the successful inserts
minus the successful removals. -/
lemma runStriped_spec {hash : Int → Nat} : ∀ (ops : List SetOp) (s : State), Inv hash s →
    ∃ rs s', run hash ops s = some (rs, s') ∧ Inv hash s' ∧
      (elems s').length + succRem ops rs = (elems s).length + succIns ops rs := by
  intro ops
  induction ops with
  | nil => intro s hInv; exact ⟨[], s, rfl, hInv, rfl⟩
  | cons op ops ih =>
    intro s hInv
    cases op with
    | ins v =>
      obtain ⟨b, s₁, hop, hInv₁, _, _, _, hmem, hfalse, htrue⟩ := InsertTop_spec hInv v
      obtain ⟨rs, s', hrun, hInv', hcount⟩ := ih s₁ hInv₁
      refine ⟨SetRes.rb b :: rs, s', ?_, hInv', ?_⟩
      · show run hash (SetOp.ins v :: ops) s = _
        simp [run, step, hop, hrun]
      · cases b with
        | false =>
          rw [hfalse rfl] at hcount
          simpa [succIns, succRem] using hcount
        | true =>
          obtain ⟨_, hlen, _, _, _⟩ := htrue rfl
          simp only [succIns, succRem]
          omega
    | rem v =>
      obtain ⟨b, s₁, hop, hInv₁, _, _, _, hmem, hfalse, htrue⟩ := Remove_spec hInv v
      obtain ⟨rs, s', hrun, hInv', hcount⟩ := ih s₁ hInv₁
      refine ⟨SetRes.rb b :: rs, s', ?_, hInv', ?_⟩
      · show run hash (SetOp.rem v :: ops) s = _
        simp [run, step, hop, hrun]
      · cases b with
        | false =>
          rw [hfalse rfl] at hcount
          simpa [succIns, succRem] using hcount
        | true =>
          obtain ⟨_, hlen, _⟩ := htrue rfl
          simp only [succIns, succRem]
          omega
    | qry v =>
      obtain ⟨rs, s', hrun, hInv', hcount⟩ := ih s hInv
      refine ⟨SetRes.rb (Contains hash s v) :: rs, s', ?_, hInv', ?_⟩
      · show run hash (SetOp.qry v :: ops) s = _
        simp [run, step, hrun]
      · simpa [succIns, succRem] using hcount
    | siz =>
      obtain ⟨rs, s', hrun, hInv', hcount⟩ := ih s hInv
      refine ⟨SetRes.rn (Size s) :: rs, s', ?_, hInv', ?_⟩
      · show run hash (SetOp.siz :: ops) s = _
        simp [run, step, hrun]
      · simpa [succIns, succRem] using hcount

end StripedHashSet

/-- Coupled execution: from a striped-set state and a linked-set state that
hold the same elements and the same counter value, any trace of calls whose
arguments lie strictly between the linked set's sentinels produces identical
results on the two implementations. -/
lemma runs_agree {hash : Int → Nat} {minV maxV : Int} :
    ∀ (ops : List SetOp) (s₁ : StripedHashSet.State) (s₂ : OptimisticLinkedSet.LSet),
      StripedHashSet.Inv hash s₁ → OptimisticLinkedSet.WFL minV maxV s₂ →
      s₁.size = s₂.size →
      (∀ w, w ∈ StripedHashSet.elems s₁ ↔ w ∈ OptimisticLinkedSet.interior s₂) →
      argsBetween minV maxV ops →
      ∃ rs s₁' s₂', StripedHashSet.run hash ops s₁ = some (rs, s₁') ∧
        OptimisticLinkedSet.run ops s₂ = some (rs, s₂') := by
  intro ops
  induction ops with
  | nil => intro s₁ s₂ _ _ _ _ _; exact ⟨[], s₁, s₂, rfl, rfl⟩
  | cons op ops ih =>
    intro s₁ s₂ hInv hWF hsz hcup hargs
    cases op with
    | ins v =>
      obtain ⟨⟨h1, h2⟩, hrest⟩ := hargs
      obtain ⟨b₁, t₁, hop₁, hInv₁, _, _, _, hmem₁, hfalse₁, htrue₁⟩ :=
        StripedHashSet.InsertTop_spec hInv v
      obtain ⟨b₂, t₂, hop₂, hWF₂, hmem₂, hfalse₂, htrue₂⟩ :=
        OptimisticLinkedSet.insert_spec hWF h1 h2
      have hb : b₂ = b₁ := by
        have h := (hmem₁.trans (hcup v)).trans hmem₂.symm
        cases b₁ with
        | false =>
          cases b₂ with
          | false => rfl
          | true => exact absurd (h.mp rfl) (by simp)
        | true =>
          cases b₂ with
          | false => exact absurd (h.mpr rfl) (by simp)
          | true => rfl
      subst hb
      have hnext : StripedHashSet.Inv hash t₁ ∧ OptimisticLinkedSet.WFL minV maxV t₂ ∧
          t₁.size = t₂.size ∧
          (∀ w, w ∈ StripedHashSet.elems t₁ ↔ w ∈ OptimisticLinkedSet.interior t₂) := by
        cases b₂ with
        | false =>
          rw [hfalse₁ rfl, hfalse₂ rfl]
          exact ⟨hInv, hWF, hsz, hcup⟩
        | true =>
          obtain ⟨hm₁, _, _, hs₁, _⟩ := htrue₁ rfl
          obtain ⟨hs₂, _, hm₂, _⟩ := htrue₂ rfl
          refine ⟨hInv₁, hWF₂, ?_, ?_⟩
          · rw [hs₁, hs₂, hsz]
          · intro w
            rw [hm₁ w, hm₂ w, hcup w]
      obtain ⟨hInv', hWF', hsz', hcup'⟩ := hnext
      obtain ⟨rs, s₁', s₂', hr₁, hr₂⟩ := ih t₁ t₂ hInv' hWF' hsz' hcup' hrest
      refine ⟨SetRes.rb b₂ :: rs, s₁', s₂', ?_, ?_⟩
      · show StripedHashSet.run hash (SetOp.ins v :: ops) s₁ = _
        simp [StripedHashSet.run, StripedHashSet.step, hop₁, hr₁]
      · show OptimisticLinkedSet.run (SetOp.ins v :: ops) s₂ = _
        simp [OptimisticLinkedSet.run, OptimisticLinkedSet.step, hop₂, hr₂]
    | rem v =>
      obtain ⟨⟨h1, h2⟩, hrest⟩ := hargs
      obtain ⟨b₁, t₁, hop₁, hInv₁, _, _, _, hmem₁, hfalse₁, htrue₁⟩ :=
        StripedHashSet.Remove_spec hInv v
      obtain ⟨b₂, t₂, hop₂, hWF₂, hmem₂, hfalse₂, htrue₂⟩ :=
        OptimisticLinkedSet.remove_spec hWF h1 h2
      have hb : b₂ = b₁ := by
        have h := (hmem₁.trans (hcup v)).trans hmem₂.symm
        cases b₁ with
        | false =>
          cases b₂ with
          | false => rfl
          | true => exact absurd (h.mpr rfl) (by simp)
        | true =>
          cases b₂ with
          | false => exact absurd (h.mp rfl) (by simp)
          | true => rfl
      subst hb
      have hnext : StripedHashSet.Inv hash t₁ ∧ OptimisticLinkedSet.WFL minV maxV t₂ ∧
          t₁.size = t₂.size ∧
          (∀ w, w ∈ StripedHashSet.elems t₁ ↔ w ∈ OptimisticLinkedSet.interior t₂) := by
        cases b₂ with
        | false =>
          rw [hfalse₁ rfl, hfalse₂ rfl]
          exact ⟨hInv, hWF, hsz, hcup⟩
        | true =>
          obtain ⟨hm₁, _, hs₁⟩ := htrue₁ rfl
          obtain ⟨hs₂, _, hm₂, _⟩ := htrue₂ rfl
          refine ⟨hInv₁, hWF₂, ?_, ?_⟩
          · rw [hs₁, hs₂, hsz]
          · intro w
            rw [hm₁ w, hm₂ w, hcup w]
      obtain ⟨hInv', hWF', hsz', hcup'⟩ := hnext
      obtain ⟨rs, s₁', s₂', hr₁, hr₂⟩ := ih t₁ t₂ hInv' hWF' hsz' hcup' hrest
      refine ⟨SetRes.rb b₂ :: rs, s₁', s₂', ?_, ?_⟩
      · show StripedHashSet.run hash (SetOp.rem v :: ops) s₁ = _
        simp [StripedHashSet.run, StripedHashSet.step, hop₁, hr₁]
      · show OptimisticLinkedSet.run (SetOp.rem v :: ops) s₂ = _
        simp [OptimisticLinkedSet.run, OptimisticLinkedSet.step, hop₂, hr₂]
    | qry v =>
      obtain ⟨⟨h1, h2⟩, hrest⟩ := hargs
      have hq₁ : StripedHashSet.Contains hash s₁ v =
          decide (v ∈ OptimisticLinkedSet.interior s₂) := by
        rw [StripedHashSet.Contains_spec hInv]
        exact decide_eq_decide.mpr (hcup v)
      have hq₂ := OptimisticLinkedSet.contains_spec hWF h1 h2
      obtain ⟨rs, s₁', s₂', hr₁, hr₂⟩ := ih s₁ s₂ hInv hWF hsz hcup hrest
      refine ⟨SetRes.rb (decide (v ∈ OptimisticLinkedSet.interior s₂)) :: rs, s₁', s₂',
        ?_, ?_⟩
      · show StripedHashSet.run hash (SetOp.qry v :: ops) s₁ = _
        simp [StripedHashSet.run, StripedHashSet.step, hq₁, hr₁]
      · show OptimisticLinkedSet.run (SetOp.qry v :: ops) s₂ = _
        simp [OptimisticLinkedSet.run, OptimisticLinkedSet.step, hq₂, hr₂]
    | siz =>
      obtain ⟨rs, s₁', s₂', hr₁, hr₂⟩ := ih s₁ s₂ hInv hWF hsz hcup hargs
      refine ⟨SetRes.rn s₁.size :: rs, s₁', s₂', ?_, ?_⟩
      · show StripedHashSet.run hash (SetOp.siz :: ops) s₁ = _
        simp [StripedHashSet.run, StripedHashSet.step, StripedHashSet.Size, hr₁]
      · show OptimisticLinkedSet.run (SetOp.siz :: ops) s₂ = _
        simp [OptimisticLinkedSet.run, OptimisticLinkedSet.step,
          OptimisticLinkedSet.size, hr₂, hsz]

namespace OptimisticLinkedSet

/-- Normal form of the mark-free `Contains` walk. -/
lemma walkContNoMark_eq (v : Int) (t : List LNode) :
    walkContNoMark v t =
      match t.dropWhile (ltv v) with
      | [] => none
      | c :: _ => some (decide (c.elem = v)) := by
  induction t with
  | nil => rfl
  | cons n rest ih =>
    rw [List.dropWhile_cons]
    by_cases h : n.elem < v
    · have hlt : ltv v n = true := by simp [ltv, h]
      rw [hlt]
      simp only [if_true]
      have hstep : walkContNoMark v (n :: rest) = walkContNoMark v rest := by
        simp [walkContNoMark, h]
      rw [hstep, ih]
    · have hlt : ltv v n = false := by simp [ltv, h]
      rw [hlt]
      simp only [Bool.false_eq_true, if_false]
      simp [walkContNoMark, h]

/-- The empty list is well formed. -/
lemma WFL_init {minV maxV : Int} (hlt : minV < maxV) :
    WFL minV maxV (initL minV maxV) := by
  refine ⟨⟨[], rfl⟩, ?_, ?_⟩
  · show List.Chain' nlt [⟨minV, false⟩, ⟨maxV, false⟩]
    exact List.chain'_pair.mpr hlt
  · intro n hn
    simp only [initL, List.mem_cons, List.not_mem_nil, or_false] at hn
    rcases hn with h | h <;> rw [h]

/-- Behaviour of the operations at the sentinel values on a well-formed
state: the `MIN` head sentinel is never matched, but the `MAX` tail sentinel
is matched by `Contains` and is unlinked by `Remove`; `Insert` of the maximum
value fails, stopping at the tail sentinel. -/
lemma sentinel_ops {minV maxV : Int} {s : LSet} (hlt : minV < maxV)
    (hWF : WFL minV maxV s) :
    contains s minV = some false ∧
      remove s minV = some (false, s) ∧
      contains s maxV = some true ∧
      remove s maxV = some (true,
        { chain := s.chain.dropLast, unlinked := ⟨maxV, false⟩ :: s.unlinked,
          size := (s.size + (sizetCard - 1)) % sizetCard }) ∧
      insert s maxV = some (false, s) := by
  obtain ⟨⟨mid, hchain⟩, hsort, hmark⟩ := hWF
  obtain ⟨ch, unl, sz⟩ := s
  simp only at hchain
  subst hchain
  have hmtail : ∀ n ∈ mid ++ [(⟨maxV, false⟩ : LNode)], n.marked = false :=
    fun n hn => hmark n (List.mem_cons_of_mem _ hn)
  have hpw : List.Pairwise nlt (⟨minV, false⟩ :: (mid ++ [(⟨maxV, false⟩ : LNode)])) :=
    strictChain_iff_pairwise.mp hsort
  have hpwt : List.Pairwise nlt (mid ++ [(⟨maxV, false⟩ : LNode)]) :=
    (List.pairwise_cons.mp hpw).2
  have hgt : ∀ n ∈ mid ++ [(⟨maxV, false⟩ : LNode)], minV < n.elem :=
    (List.pairwise_cons.mp hpw).1
  have hltmax : ∀ n ∈ mid, n.elem < maxV := by
    intro n hn
    exact (List.pairwise_append.mp hpwt).2.2 n hn ⟨maxV, false⟩ (by simp)
  have hdmin : (mid ++ [(⟨maxV, false⟩ : LNode)]).dropWhile (ltv minV) =
      mid ++ [(⟨maxV, false⟩ : LNode)] := by
    apply List.dropWhile_eq_self_iff.mpr
    intro hl
    have hmem := List.get_mem (mid ++ [(⟨maxV, false⟩ : LNode)]) 0 hl
    have := hgt _ hmem
    simp only [ltv, decide_eq_true_eq]
    omega
  have hdmax : (mid ++ [(⟨maxV, false⟩ : LNode)]).dropWhile (ltv maxV) =
      [(⟨maxV, false⟩ : LNode)] := by
    rw [List.dropWhile_append]
    rw [List.dropWhile_eq_nil_iff.mpr (fun x hx => by
      simp only [ltv, decide_eq_true_eq]
      exact hltmax x hx)]
    simp [ltv]
  have htmax : (mid ++ [(⟨maxV, false⟩ : LNode)]).takeWhile (ltv maxV) = mid := by
    rw [List.takeWhile_append]
    rw [List.takeWhile_eq_self_iff.mpr (fun x hx => by
      simp only [ltv, decide_eq_true_eq]
      exact hltmax x hx)]
    simp [ltv]
  cases ht : mid ++ [(⟨maxV, false⟩ : LNode)] with
  | nil => exact absurd ht (by simp)
  | cons c0 r0 =>
    have hc0mem : c0 ∈ mid ++ [(⟨maxV, false⟩ : LNode)] := by rw [ht]; simp
    have hc0gt : minV < c0.elem := hgt c0 hc0mem
    have hc0m : c0.marked = false := hmtail c0 hc0mem
    have hc0ne : ¬ c0.elem = minV := by omega
    rw [← ht]
    refine ⟨?_, ?_, ?_, ?_, ?_⟩
    · rw [contains_cons]
      have h1 : walkCont minV (mid ++ [(⟨maxV, false⟩ : LNode)]) =
          some (!c0.marked && decide (c0.elem = minV)) := by
        rw [walkCont_eq, hdmin, ht]
      rw [h1, hc0m]
      simp [hc0ne]
    · rw [remove_cons]
      have h2 : walkRem minV ⟨minV, false⟩ (mid ++ [(⟨maxV, false⟩ : LNode)]) =
          if c0.elem = minV then
            some (true, (mid ++ [(⟨maxV, false⟩ : LNode)]).takeWhile (ltv minV) ++ r0,
              some c0)
          else some (false, mid ++ [(⟨maxV, false⟩ : LNode)], none) := by
        rw [walkRem_eq minV (mid ++ [(⟨maxV, false⟩ : LNode)]) ⟨minV, false⟩ rfl hmtail,
          hdmin, ht]
      rw [h2, if_neg hc0ne]
    · rw [contains_cons]
      have h1 : walkCont maxV (mid ++ [(⟨maxV, false⟩ : LNode)]) =
          some (!(⟨maxV, false⟩ : LNode).marked && decide ((⟨maxV, false⟩ : LNode).elem = maxV)) := by
        rw [walkCont_eq, hdmax]
      rw [h1]
      simp
    · rw [remove_cons]
      have h1 : walkRem maxV ⟨minV, false⟩ (mid ++ [(⟨maxV, false⟩ : LNode)]) =
          if (⟨maxV, false⟩ : LNode).elem = maxV then
            some (true, (mid ++ [(⟨maxV, false⟩ : LNode)]).takeWhile (ltv maxV) ++ [],
              some ⟨maxV, false⟩)
          else some (false, mid ++ [(⟨maxV, false⟩ : LNode)], none) := by
        rw [walkRem_eq maxV (mid ++ [(⟨maxV, false⟩ : LNode)]) ⟨minV, false⟩ rfl hmtail,
          hdmax]
      rw [h1, if_pos rfl, htmax]
      have hdl : ((⟨minV, false⟩ : LNode) ::
          (mid ++ [(⟨maxV, false⟩ : LNode)])).dropLast = ⟨minV, false⟩ :: mid := by
        rw [List.dropLast_cons_of_ne_nil (by simp), List.dropLast_concat]
      rw [hdl]
      simp
    · rw [insert_cons]
      have h1 : walkIns maxV ⟨minV, false⟩ (mid ++ [(⟨maxV, false⟩ : LNode)]) =
          if (⟨maxV, false⟩ : LNode).elem = maxV then
            some (false, mid ++ [(⟨maxV, false⟩ : LNode)])
          else some (true, (mid ++ [(⟨maxV, false⟩ : LNode)]).takeWhile (ltv maxV) ++
            ⟨maxV, false⟩ :: (⟨maxV, false⟩ : LNode) :: []) := by
        rw [walkIns_eq maxV (mid ++ [(⟨maxV, false⟩ : LNode)]) ⟨minV, false⟩ rfl hmtail,
          hdmax]
      rw [h1, if_pos rfl]

end OptimisticLinkedSet

/-- A trace cannot have more successful inserts than operations. -/
lemma succIns_le : ∀ (ops : List SetOp) (rs : List SetRes),
    succIns ops rs ≤ ops.length := by
  intro ops
  induction ops with
  | nil =>
    intro rs
    cases rs <;> simp [succIns]
  | cons op rest ih =>
    intro rs
    cases rs with
    | nil =>
      cases op <;> simp [succIns]
    | cons r rrs =>
      have h := ih rrs
      cases op with
      | ins v =>
        cases r with
        | rb b =>
          cases b with
          | true =>
            simp only [succIns, List.length_cons]
            omega
          | false =>
            simp only [succIns, List.length_cons]
            omega
        | rn n =>
          simp only [succIns, List.length_cons]
          omega
      | rem v =>
        cases r <;> simp only [succIns, List.length_cons] <;> omega
      | qry v =>
        cases r <;> simp only [succIns, List.length_cons] <;> omega
      | siz =>
        cases r <;> simp only [succIns, List.length_cons] <;> omega

/-- The default-parameter constructor call of the concrete scenarios:
`StripedHashSet(4)` with growth factor `2` and load factor `1.25`; the
`double` `1.25` is truncated into the `size_t` field as `1`. -/
lemma construct_default : StripedHashSet.construct 4 2 (5 / 4) =
    { growth := 2, maxLoad := 1, numStripes := 4,
      buckets := [[], [], [], []], size := 0 } := by
  unfold StripedHashSet.construct doubleToSizet
  norm_num
  decide

namespace OptimisticLinkedSet

/-- The `Insert` walk reads its `pred` argument only through its marked
flag (the source compares `curr->element_` and validates
`pred->marked_`). -/
lemma walkIns_pred (v : Int) (t : List LNode) : ∀ p q : LNode,
    p.marked = q.marked → walkIns v p t = walkIns v q t := by
  induction t with
  | nil => intro p q _; rfl
  | cons n rest ih =>
    intro p q h
    simp only [walkIns, h]

/-- The `Remove` walk likewise reads its `pred` argument only through its
marked flag. -/
lemma walkRem_pred (v : Int) (t : List LNode) : ∀ p q : LNode,
    p.marked = q.marked → walkRem v p t = walkRem v q t := by
  induction t with
  | nil => intro p q _; rfl
  | cons n rest ih =>
    intro p q h
    simp only [walkRem, h]

/-- `insert` on a state whose head holds `w` is `insert` on the same state
with the head relabelled to `w'`, with the head value restored in the
result: the head sentinel's element value is never read. -/
lemma insert_rehead (w w' v : Int) (t unl : List LNode) (sz : Nat) :
    insert ⟨⟨w, false⟩ :: t, unl, sz⟩ v =
      (insert ⟨⟨w', false⟩ :: t, unl, sz⟩ v).map
        (fun r => (r.1, ⟨⟨w, false⟩ :: r.2.chain.drop 1, r.2.unlinked, r.2.size⟩)) := by
  rw [insert_cons, insert_cons,
    walkIns_pred v t (⟨w, false⟩ : LNode) (⟨w', false⟩ : LNode) rfl]
  cases walkIns v (⟨w', false⟩ : LNode) t with
  | none => rfl
  | some bt =>
    obtain ⟨b₀, t'⟩ := bt
    cases b₀ <;> rfl

/-- `remove` with the head relabelled, as for `insert`. -/
lemma remove_rehead (w w' v : Int) (t unl : List LNode) (sz : Nat) :
    remove ⟨⟨w, false⟩ :: t, unl, sz⟩ v =
      (remove ⟨⟨w', false⟩ :: t, unl, sz⟩ v).map
        (fun r => (r.1, ⟨⟨w, false⟩ :: r.2.chain.drop 1, r.2.unlinked, r.2.size⟩)) := by
  rw [remove_cons, remove_cons,
    walkRem_pred v t (⟨w, false⟩ : LNode) (⟨w', false⟩ : LNode) rfl]
  cases walkRem v (⟨w', false⟩ : LNode) t with
  | none => rfl
  | some r =>
    obtain ⟨b₀, t', c⟩ := r
    cases b₀ <;> rfl

/-- A generalised well-formed state, relabelled at the head to `minV - 1`,
is well formed in the strict sense over the extended range. -/
lemma WFG_to_rel {minV maxV : Int} {mid : List LNode} (unl : List LNode) (sz : Nat)
    (hle : minV ≤ maxV)
    (hpw : List.Pairwise nlt (mid ++ [⟨maxV, false⟩]))
    (hbound : ∀ n ∈ mid, minV ≤ n.elem)
    (hmark : ∀ n ∈ mid ++ [(⟨maxV, false⟩ : LNode)], n.marked = false) :
    WFL (minV - 1) maxV ⟨⟨minV - 1, false⟩ :: (mid ++ [⟨maxV, false⟩]), unl, sz⟩ := by
  refine ⟨⟨mid, rfl⟩, ?_, ?_⟩
  · refine strictChain_iff_pairwise.mpr (List.pairwise_cons.mpr ⟨?_, hpw⟩)
    intro n hn
    rcases List.mem_append.mp hn with h | h
    · have := hbound n h
      show (minV : Int) - 1 < n.elem
      omega
    · simp only [List.mem_singleton] at h
      subst h
      show (minV : Int) - 1 < maxV
      omega
  · intro n hn
    rcases List.mem_cons.mp hn with h | h
    · rw [h]
    · exact hmark n h

/-- Conversely, a strictly well-formed state over the extended range,
relabelled at the head back to `minV`, is generalised well formed. -/
lemma rel_to_WFG {minV maxV : Int} {t unl : List LNode} {sz : Nat} (hle : minV ≤ maxV)
    (hWF : WFL (minV - 1) maxV ⟨⟨minV - 1, false⟩ :: t, unl, sz⟩) :
    WFG minV maxV ⟨⟨minV, false⟩ :: t, unl, sz⟩ := by
  obtain ⟨⟨mid, hchain⟩, hsort, hmark⟩ := hWF
  have hchain' : (⟨minV - 1, false⟩ : LNode) :: t =
      ⟨minV - 1, false⟩ :: (mid ++ [⟨maxV, false⟩]) := hchain
  injection hchain' with _ ht
  subst ht
  have hpw := strictChain_iff_pairwise.mp hsort
  rw [List.pairwise_cons] at hpw
  refine ⟨hle, mid, rfl, hpw.2, ?_, ?_⟩
  · intro n hn
    have h2 : (minV : Int) - 1 < n.elem := hpw.1 n (List.mem_append_left _ hn)
    omega
  · intro n hn
    rcases List.mem_cons.mp hn with h | h
    · rw [h]
    · exact hmark n (List.mem_cons_of_mem _ h)

/-- Specification of `insert` on a generalised well-formed state, for any
representable value below the tail sentinel — the `MIN` sentinel value
included. -/
lemma insert_specG {minV maxV v : Int} {s : LSet} (hWF : WFG minV maxV s)
    (hlo : minV ≤ v) (hhi : v < maxV) :
    ∃ b s', insert s v = some (b, s') ∧ WFG minV maxV s' ∧
      (b = false ↔ v ∈ interior s) ∧
      (b = false → s' = s) ∧
      (b = true → s'.size = (s.size + 1) % sizetCard ∧ s'.unlinked = s.unlinked ∧
        (∀ w, w ∈ interior s' ↔ w ∈ interior s ∨ w = v) ∧
        (interior s').length = (interior s).length + 1) := by
  obtain ⟨hle, mid, hchain, hpw, hbound, hmark⟩ := hWF
  obtain ⟨ch, unl, sz⟩ := s
  simp only at hchain
  subst hchain
  have hmark' : ∀ n ∈ mid ++ [(⟨maxV, false⟩ : LNode)], n.marked = false :=
    fun n hn => hmark n (List.mem_cons_of_mem _ hn)
  have hWFrel : WFL (minV - 1) maxV
      ⟨⟨minV - 1, false⟩ :: (mid ++ [⟨maxV, false⟩]), unl, sz⟩ :=
    WFG_to_rel unl sz hle hpw hbound hmark'
  obtain ⟨b, s', hop, hWF₁, hmem, hfalse, htrue⟩ := insert_spec hWFrel (by omega) hhi
  obtain ⟨mid', hchain'⟩ := hWF₁.1
  have hreh := insert_rehead minV (minV - 1) v (mid ++ [⟨maxV, false⟩]) unl sz
  rw [hop] at hreh
  have hres : insert ⟨⟨minV, false⟩ :: (mid ++ [⟨maxV, false⟩]), unl, sz⟩ v =
      some (b, ⟨⟨minV, false⟩ :: (mid' ++ [⟨maxV, false⟩]), s'.unlinked, s'.size⟩) := by
    rw [hreh]
    show some (b, (⟨⟨minV, false⟩ :: s'.chain.drop 1,
      s'.unlinked, s'.size⟩ : LSet)) = _
    rw [hchain']
    rfl
  have hseta : s' = ⟨⟨minV - 1, false⟩ :: (mid' ++ [⟨maxV, false⟩]),
      s'.unlinked, s'.size⟩ := by
    rw [← hchain']
  have hWFG' : WFG minV maxV ⟨⟨minV, false⟩ :: (mid' ++ [⟨maxV, false⟩]),
      s'.unlinked, s'.size⟩ :=
    rel_to_WFG hle (hseta ▸ hWF₁)
  have hi_real : interior (⟨⟨minV, false⟩ :: (mid ++ [⟨maxV, false⟩]),
      unl, sz⟩ : LSet) = mid.map LNode.elem := interior_eq mid rfl
  have hi_rel : interior (⟨⟨minV - 1, false⟩ :: (mid ++ [⟨maxV, false⟩]),
      unl, sz⟩ : LSet) = mid.map LNode.elem := interior_eq mid rfl
  have hi_res : interior (⟨⟨minV, false⟩ :: (mid' ++ [⟨maxV, false⟩]),
      s'.unlinked, s'.size⟩ : LSet) = mid'.map LNode.elem := interior_eq mid' rfl
  have hi_s' : interior s' = mid'.map LNode.elem := interior_eq mid' hchain'
  refine ⟨b, _, hres, hWFG', ?_, ?_, ?_⟩
  · rw [hi_real, ← hi_rel]
    exact hmem
  · intro hb
    have hseq := hfalse hb
    have hch2 : (⟨minV - 1, false⟩ : LNode) :: (mid' ++ [⟨maxV, false⟩]) =
        ⟨minV - 1, false⟩ :: (mid ++ [⟨maxV, false⟩]) := by
      rw [← hchain', hseq]
    injection hch2 with _ ht2
    have hu : s'.unlinked = unl := by rw [hseq]
    have hz : s'.size = sz := by rw [hseq]
    rw [ht2, hu, hz]
  · intro hb
    obtain ⟨hsz', hunl', hmem', hlen'⟩ := htrue hb
    refine ⟨hsz', hunl', ?_, ?_⟩
    · intro w
      rw [hi_res, ← hi_s', hi_real, ← hi_rel]
      exact hmem' w
    · rw [hi_res, ← hi_s', hi_real, ← hi_rel]
      exact hlen'

/-- Specification of `remove` on a generalised well-formed state, for any
representable value below the tail sentinel — the `MIN` sentinel value
included. -/
lemma remove_specG {minV maxV v : Int} {s : LSet} (hWF : WFG minV maxV s)
    (hlo : minV ≤ v) (hhi : v < maxV) :
    ∃ b s', remove s v = some (b, s') ∧ WFG minV maxV s' ∧
      (b = true ↔ v ∈ interior s) ∧
      (b = false → s' = s) ∧
      (b = true → s'.size = (s.size + (sizetCard - 1)) % sizetCard ∧
        s'.unlinked = ⟨v, false⟩ :: s.unlinked ∧
        (∀ w, w ∈ interior s' ↔ w ∈ interior s ∧ w ≠ v) ∧
        (interior s).length = (interior s').length + 1) := by
  obtain ⟨hle, mid, hchain, hpw, hbound, hmark⟩ := hWF
  obtain ⟨ch, unl, sz⟩ := s
  simp only at hchain
  subst hchain
  have hmark' : ∀ n ∈ mid ++ [(⟨maxV, false⟩ : LNode)], n.marked = false :=
    fun n hn => hmark n (List.mem_cons_of_mem _ hn)
  have hWFrel : WFL (minV - 1) maxV
      ⟨⟨minV - 1, false⟩ :: (mid ++ [⟨maxV, false⟩]), unl, sz⟩ :=
    WFG_to_rel unl sz hle hpw hbound hmark'
  obtain ⟨b, s', hop, hWF₁, hmem, hfalse, htrue⟩ := remove_spec hWFrel (by omega) hhi
  obtain ⟨mid', hchain'⟩ := hWF₁.1
  have hreh := remove_rehead minV (minV - 1) v (mid ++ [⟨maxV, false⟩]) unl sz
  rw [hop] at hreh
  have hres : remove ⟨⟨minV, false⟩ :: (mid ++ [⟨maxV, false⟩]), unl, sz⟩ v =
      some (b, ⟨⟨minV, false⟩ :: (mid' ++ [⟨maxV, false⟩]), s'.unlinked, s'.size⟩) := by
    rw [hreh]
    show some (b, (⟨⟨minV, false⟩ :: s'.chain.drop 1,
      s'.unlinked, s'.size⟩ : LSet)) = _
    rw [hchain']
    rfl
  have hseta : s' = ⟨⟨minV - 1, false⟩ :: (mid' ++ [⟨maxV, false⟩]),
      s'.unlinked, s'.size⟩ := by
    rw [← hchain']
  have hWFG' : WFG minV maxV ⟨⟨minV, false⟩ :: (mid' ++ [⟨maxV, false⟩]),
      s'.unlinked, s'.size⟩ :=
    rel_to_WFG hle (hseta ▸ hWF₁)
  have hi_real : interior (⟨⟨minV, false⟩ :: (mid ++ [⟨maxV, false⟩]),
      unl, sz⟩ : LSet) = mid.map LNode.elem := interior_eq mid rfl
  have hi_rel : interior (⟨⟨minV - 1, false⟩ :: (mid ++ [⟨maxV, false⟩]),
      unl, sz⟩ : LSet) = mid.map LNode.elem := interior_eq mid rfl
  have hi_res : interior (⟨⟨minV, false⟩ :: (mid' ++ [⟨maxV, false⟩]),
      s'.unlinked, s'.size⟩ : LSet) = mid'.map LNode.elem := interior_eq mid' rfl
  have hi_s' : interior s' = mid'.map LNode.elem := interior_eq mid' hchain'
  refine ⟨b, _, hres, hWFG', ?_, ?_, ?_⟩
  · rw [hi_real, ← hi_rel]
    exact hmem
  · intro hb
    have hseq := hfalse hb
    have hch2 : (⟨minV - 1, false⟩ : LNode) :: (mid' ++ [⟨maxV, false⟩]) =
        ⟨minV - 1, false⟩ :: (mid ++ [⟨maxV, false⟩]) := by
      rw [← hchain', hseq]
    injection hch2 with _ ht2
    have hu : s'.unlinked = unl := by rw [hseq]
    have hz : s'.size = sz := by rw [hseq]
    rw [ht2, hu, hz]
  · intro hb
    obtain ⟨hsz', hunl', hmem', hlen'⟩ := htrue hb
    refine ⟨hsz', hunl', ?_, ?_⟩
    · intro w
      rw [hi_res, ← hi_s', hi_real, ← hi_rel]
      exact hmem' w
    · rw [hi_res, ← hi_s', hi_real, ← hi_rel]
      exact hlen'

/-- Specification of `contains` on a generalised well-formed state, for any
representable value below the tail sentinel. -/
lemma contains_specG {minV maxV v : Int} {s : LSet} (hWF : WFG minV maxV s)
    (hlo : minV ≤ v) (hhi : v < maxV) :
    contains s v = some (decide (v ∈ interior s)) := by
  obtain ⟨hle, mid, hchain, hpw, hbound, hmark⟩ := hWF
  obtain ⟨ch, unl, sz⟩ := s
  simp only at hchain
  subst hchain
  have hmark' : ∀ n ∈ mid ++ [(⟨maxV, false⟩ : LNode)], n.marked = false :=
    fun n hn => hmark n (List.mem_cons_of_mem _ hn)
  have hWFrel : WFL (minV - 1) maxV
      ⟨⟨minV - 1, false⟩ :: (mid ++ [⟨maxV, false⟩]), unl, sz⟩ :=
    WFG_to_rel unl sz hle hpw hbound hmark'
  have h := contains_spec hWFrel (by omega) hhi
  rw [contains_cons] at h
  rw [contains_cons, h]
  have h1 : interior (⟨⟨minV - 1, false⟩ :: (mid ++ [⟨maxV, false⟩]),
      unl, sz⟩ : LSet) = mid.map LNode.elem := interior_eq mid rfl
  have h2 : interior (⟨⟨minV, false⟩ :: (mid ++ [⟨maxV, false⟩]),
      unl, sz⟩ : LSet) = mid.map LNode.elem := interior_eq mid rfl
  rw [h1, h2]

/-- `insert` of the tail sentinel value on a generalised well-formed state
fails and changes nothing. -/
lemma insert_max_G {minV maxV : Int} {s : LSet} (hWF : WFG minV maxV s) :
    insert s maxV = some (false, s) := by
  obtain ⟨hle, mid, hchain, hpw, hbound, hmark⟩ := hWF
  obtain ⟨ch, unl, sz⟩ := s
  simp only at hchain
  subst hchain
  have hmark' : ∀ n ∈ mid ++ [(⟨maxV, false⟩ : LNode)], n.marked = false :=
    fun n hn => hmark n (List.mem_cons_of_mem _ hn)
  have hWFrel : WFL (minV - 1) maxV
      ⟨⟨minV - 1, false⟩ :: (mid ++ [⟨maxV, false⟩]), unl, sz⟩ :=
    WFG_to_rel unl sz hle hpw hbound hmark'
  obtain ⟨_, _, _, _, he⟩ := sentinel_ops (by omega) hWFrel
  have hreh := insert_rehead minV (minV - 1) maxV (mid ++ [⟨maxV, false⟩]) unl sz
  rw [he] at hreh
  rw [hreh]
  rfl

/-- `contains` of the tail sentinel value on a generalised well-formed
state reports `true`. -/
lemma contains_max_G {minV maxV : Int} {s : LSet} (hWF : WFG minV maxV s) :
    contains s maxV = some true := by
  obtain ⟨hle, mid, hchain, hpw, hbound, hmark⟩ := hWF
  obtain ⟨ch, unl, sz⟩ := s
  simp only at hchain
  subst hchain
  have hmark' : ∀ n ∈ mid ++ [(⟨maxV, false⟩ : LNode)], n.marked = false :=
    fun n hn => hmark n (List.mem_cons_of_mem _ hn)
  have hWFrel : WFL (minV - 1) maxV
      ⟨⟨minV - 1, false⟩ :: (mid ++ [⟨maxV, false⟩]), unl, sz⟩ :=
    WFG_to_rel unl sz hle hpw hbound hmark'
  obtain ⟨_, _, hc, _, _⟩ := sentinel_ops (by omega) hWFrel
  rw [contains_cons] at hc
  rw [contains_cons, hc]

/-- The fresh chain is generalised well formed. -/
lemma WFG_init {minV maxV : Int} (hle : minV ≤ maxV) :
    WFG minV maxV (initL minV maxV) := by
  refine ⟨hle, [], rfl, ?_, ?_, ?_⟩
  · simp
  · intro n hn
    simp at hn
  · intro n hn
    simp only [initL, List.mem_cons, List.not_mem_nil, or_false] at hn
    rcases hn with h | h <;> rw [h]

/-- Running any trace of representable arguments with no `Remove` of the
tail sentinel value, from a generalised well-formed state whose counter
matches its interior length modulo `2 ^ 64`: the run completes, the final
state is again such a state, and the interior length changes by exactly the
successful inserts minus the successful removals. -/
lemma runG_spec {minV maxV : Int} : ∀ (ops : List SetOp) (s : LSet),
    WFG minV maxV s → s.size = (interior s).length % sizetCard →
    argsNoRemMax minV maxV ops →
    ∃ rs s', run ops s = some (rs, s') ∧ WFG minV maxV s' ∧
      s'.size = (interior s').length % sizetCard ∧
      (interior s').length + succRem ops rs = (interior s).length + succIns ops rs := by
  intro ops
  induction ops with
  | nil =>
    intro s hWF hsz _
    exact ⟨[], s, rfl, hWF, hsz, rfl⟩
  | cons op ops ih =>
    intro s hWF hsz hargs
    cases op with
    | ins v =>
      obtain ⟨⟨h1, h2⟩, hrest⟩ := hargs
      by_cases hmax : v = maxV
      · subst hmax
        have hop := insert_max_G hWF
        obtain ⟨rs, s', hrun, hWF', hsz', hcount⟩ := ih s hWF hsz hrest
        refine ⟨SetRes.rb false :: rs, s', ?_, hWF', hsz', ?_⟩
        · show run (SetOp.ins v :: ops) s = _
          simp [run, step, hop, hrun]
        · simpa [succIns, succRem] using hcount
      · have hhi : v < maxV := lt_of_le_of_ne h2 hmax
        obtain ⟨b, s₁, hop, hWF₁, hmem, hfalse, htrue⟩ := insert_specG hWF h1 hhi
        have hsz₁ : s₁.size = (interior s₁).length % sizetCard := by
          cases b with
          | false => rw [hfalse rfl]; exact hsz
          | true =>
            obtain ⟨ha, _, _, hlen⟩ := htrue rfl
            rw [ha, hlen, hsz, mod_add_one]
        obtain ⟨rs, s', hrun, hWF', hsz', hcount⟩ := ih s₁ hWF₁ hsz₁ hrest
        refine ⟨SetRes.rb b :: rs, s', ?_, hWF', hsz', ?_⟩
        · show run (SetOp.ins v :: ops) s = _
          simp [run, step, hop, hrun]
        · cases b with
          | false =>
            rw [hfalse rfl] at hcount
            simpa [succIns, succRem] using hcount
          | true =>
            obtain ⟨_, _, _, hlen⟩ := htrue rfl
            rw [hlen] at hcount
            simp only [succIns, succRem]
            omega
    | rem v =>
      obtain ⟨⟨h1, h2⟩, hrest⟩ := hargs
      obtain ⟨b, s₁, hop, hWF₁, hmem, hfalse, htrue⟩ := remove_specG hWF h1 h2
      have hsz₁ : s₁.size = (interior s₁).length % sizetCard := by
        cases b with
        | false => rw [hfalse rfl]; exact hsz
        | true =>
          obtain ⟨ha, _, _, hlen⟩ := htrue rfl
          rw [ha, hsz, hlen, mod_sub_one]
      obtain ⟨rs, s', hrun, hWF', hsz', hcount⟩ := ih s₁ hWF₁ hsz₁ hrest
      refine ⟨SetRes.rb b :: rs, s', ?_, hWF', hsz', ?_⟩
      · show run (SetOp.rem v :: ops) s = _
        simp [run, step, hop, hrun]
      · cases b with
        | false =>
          rw [hfalse rfl] at hcount
          simpa [succIns, succRem] using hcount
        | true =>
          obtain ⟨_, _, _, hlen⟩ := htrue rfl
          simp only [succIns, succRem]
          omega
    | qry v =>
      obtain ⟨⟨h1, h2⟩, hrest⟩ := hargs
      by_cases hmax : v = maxV
      · subst hmax
        have hop := contains_max_G hWF
        obtain ⟨rs, s', hrun, hWF', hsz', hcount⟩ := ih s hWF hsz hrest
        refine ⟨SetRes.rb true :: rs, s', ?_, hWF', hsz', ?_⟩
        · show run (SetOp.qry v :: ops) s = _
          simp [run, step, hop, hrun]
        · simpa [succIns, succRem] using hcount
      · have hhi : v < maxV := lt_of_le_of_ne h2 hmax
        have hop := contains_specG hWF h1 hhi
        obtain ⟨rs, s', hrun, hWF', hsz', hcount⟩ := ih s hWF hsz hrest
        refine ⟨SetRes.rb (decide (v ∈ interior s)) :: rs, s', ?_, hWF', hsz', ?_⟩
        · show run (SetOp.qry v :: ops) s = _
          simp [run, step, hop, hrun]
        · simpa [succIns, succRem] using hcount
    | siz =>
      obtain ⟨rs, s', hrun, hWF', hsz', hcount⟩ := ih s hWF hsz hargs
      refine ⟨SetRes.rn (size s) :: rs, s', ?_, hWF', hsz', ?_⟩
      · show run (SetOp.siz :: ops) s = _
        simp [run, step, hrun]
      · simpa [succIns, succRem] using hcount

end OptimisticLinkedSet

/-- Coupled execution on the widened argument range: from a striped-set
state and a generalised well-formed linked-set state that hold the same
elements and the same counter value, any trace of calls whose arguments
avoid the linked set's `MAX` sentinel value — the `MIN` value included —
produces identical results on the two implementations. -/
lemma runs_agreeG {hash : Int → Nat} {minV maxV : Int} :
    ∀ (ops : List SetOp) (s₁ : StripedHashSet.State) (s₂ : OptimisticLinkedSet.LSet),
      StripedHashSet.Inv hash s₁ → OptimisticLinkedSet.WFG minV maxV s₂ →
      s₁.size = s₂.size →
      (∀ w, w ∈ StripedHashSet.elems s₁ ↔ w ∈ OptimisticLinkedSet.interior s₂) →
      argsBelow minV maxV ops →
      ∃ rs s₁' s₂', StripedHashSet.run hash ops s₁ = some (rs, s₁') ∧
        OptimisticLinkedSet.run ops s₂ = some (rs, s₂') := by
  intro ops
  induction ops with
  | nil => intro s₁ s₂ _ _ _ _ _; exact ⟨[], s₁, s₂, rfl, rfl⟩
  | cons op ops ih =>
    intro s₁ s₂ hInv hWF hsz hcup hargs
    cases op with
    | ins v =>
      obtain ⟨⟨h1, h2⟩, hrest⟩ := hargs
      obtain ⟨b₁, t₁, hop₁, hInv₁, _, _, _, hmem₁, hfalse₁, htrue₁⟩ :=
        StripedHashSet.InsertTop_spec hInv v
      obtain ⟨b₂, t₂, hop₂, hWF₂, hmem₂, hfalse₂, htrue₂⟩ :=
        OptimisticLinkedSet.insert_specG hWF h1 h2
      have hb : b₂ = b₁ := by
        have h := (hmem₁.trans (hcup v)).trans hmem₂.symm
        cases b₁ with
        | false =>
          cases b₂ with
          | false => rfl
          | true => exact absurd (h.mp rfl) (by simp)
        | true =>
          cases b₂ with
          | false => exact absurd (h.mpr rfl) (by simp)
          | true => rfl
      subst hb
      have hnext : StripedHashSet.Inv hash t₁ ∧
          OptimisticLinkedSet.WFG minV maxV t₂ ∧ t₁.size = t₂.size ∧
          (∀ w, w ∈ StripedHashSet.elems t₁ ↔ w ∈ OptimisticLinkedSet.interior t₂) := by
        cases b₂ with
        | false =>
          rw [hfalse₁ rfl, hfalse₂ rfl]
          exact ⟨hInv, hWF, hsz, hcup⟩
        | true =>
          obtain ⟨hm₁, _, _, hs₁, _⟩ := htrue₁ rfl
          obtain ⟨hs₂, _, hm₂, _⟩ := htrue₂ rfl
          refine ⟨hInv₁, hWF₂, ?_, ?_⟩
          · rw [hs₁, hs₂, hsz]
          · intro w
            rw [hm₁ w, hm₂ w, hcup w]
      obtain ⟨hInv', hWF', hsz', hcup'⟩ := hnext
      obtain ⟨rs, s₁', s₂', hr₁, hr₂⟩ := ih t₁ t₂ hInv' hWF' hsz' hcup' hrest
      refine ⟨SetRes.rb b₂ :: rs, s₁', s₂', ?_, ?_⟩
      · show StripedHashSet.run hash (SetOp.ins v :: ops) s₁ = _
        simp [StripedHashSet.run, StripedHashSet.step, hop₁, hr₁]
      · show OptimisticLinkedSet.run (SetOp.ins v :: ops) s₂ = _
        simp [OptimisticLinkedSet.run, OptimisticLinkedSet.step, hop₂, hr₂]
    | rem v =>
      obtain ⟨⟨h1, h2⟩, hrest⟩ := hargs
      obtain ⟨b₁, t₁, hop₁, hInv₁, _, _, _, hmem₁, hfalse₁, htrue₁⟩ :=
        StripedHashSet.Remove_spec hInv v
      obtain ⟨b₂, t₂, hop₂, hWF₂, hmem₂, hfalse₂, htrue₂⟩ :=
        OptimisticLinkedSet.remove_specG hWF h1 h2
      have hb : b₂ = b₁ := by
        have h := (hmem₁.trans (hcup v)).trans hmem₂.symm
        cases b₁ with
        | false =>
          cases b₂ with
          | false => rfl
          | true => exact absurd (h.mpr rfl) (by simp)
        | true =>
          cases b₂ with
          | false => exact absurd (h.mp rfl) (by simp)
          | true => rfl
      subst hb
      have hnext : StripedHashSet.Inv hash t₁ ∧
          OptimisticLinkedSet.WFG minV maxV t₂ ∧ t₁.size = t₂.size ∧
          (∀ w, w ∈ StripedHashSet.elems t₁ ↔ w ∈ OptimisticLinkedSet.interior t₂) := by
        cases b₂ with
        | false =>
          rw [hfalse₁ rfl, hfalse₂ rfl]
          exact ⟨hInv, hWF, hsz, hcup⟩
        | true =>
          obtain ⟨hm₁, _, hs₁⟩ := htrue₁ rfl
          obtain ⟨hs₂, _, hm₂, _⟩ := htrue₂ rfl
          refine ⟨hInv₁, hWF₂, ?_, ?_⟩
          · rw [hs₁, hs₂, hsz]
          · intro w
            rw [hm₁ w, hm₂ w, hcup w]
      obtain ⟨hInv', hWF', hsz', hcup'⟩ := hnext
      obtain ⟨rs, s₁', s₂', hr₁, hr₂⟩ := ih t₁ t₂ hInv' hWF' hsz' hcup' hrest
      refine ⟨SetRes.rb b₂ :: rs, s₁', s₂', ?_, ?_⟩
      · show StripedHashSet.run hash (SetOp.rem v :: ops) s₁ = _
        simp [StripedHashSet.run, StripedHashSet.step, hop₁, hr₁]
      · show OptimisticLinkedSet.run (SetOp.rem v :: ops) s₂ = _
        simp [OptimisticLinkedSet.run, OptimisticLinkedSet.step, hop₂, hr₂]
    | qry v =>
      obtain ⟨⟨h1, h2⟩, hrest⟩ := hargs
      have hq₁ : StripedHashSet.Contains hash s₁ v =
          decide (v ∈ OptimisticLinkedSet.interior s₂) := by
        rw [StripedHashSet.Contains_spec hInv]
        exact decide_eq_decide.mpr (hcup v)
      have hq₂ := OptimisticLinkedSet.contains_specG hWF h1 h2
      obtain ⟨rs, s₁', s₂', hr₁, hr₂⟩ := ih s₁ s₂ hInv hWF hsz hcup hrest
      refine ⟨SetRes.rb (decide (v ∈ OptimisticLinkedSet.interior s₂)) :: rs, s₁', s₂',
        ?_, ?_⟩
      · show StripedHashSet.run hash (SetOp.qry v :: ops) s₁ = _
        simp [StripedHashSet.run, StripedHashSet.step, hq₁, hr₁]
      · show OptimisticLinkedSet.run (SetOp.qry v :: ops) s₂ = _
        simp [OptimisticLinkedSet.run, OptimisticLinkedSet.step, hq₂, hr₂]
    | siz =>
      obtain ⟨rs, s₁', s₂', hr₁, hr₂⟩ := ih s₁ s₂ hInv hWF hsz hcup hargs
      refine ⟨SetRes.rn s₁.size :: rs, s₁', s₂', ?_, ?_⟩
      · show StripedHashSet.run hash (SetOp.siz :: ops) s₁ = _
        simp [StripedHashSet.run, StripedHashSet.step, StripedHashSet.Size, hr₁]
      · show OptimisticLinkedSet.run (SetOp.siz :: ops) s₂ = _
        simp [OptimisticLinkedSet.run, OptimisticLinkedSet.step,
          OptimisticLinkedSet.size, hr₂, hsz]

/-! ## Claim theorems -/

/-- Claim C1 (corrected): on every well-formed state the `MIN` head sentinel
is indeed never matched — `Contains(Min)` reports `false` and `Remove(Min)`
returns `false` without unlinking anything — but the `MAX` tail sentinel IS
matched: `Contains(Max)` reports `true` and `Remove(Max)` returns `true` and
unlinks the tail sentinel, because `Contains` and `Remove` compare the stop
node of `Locate` against the argument and `Locate` stops exactly at the tail
sentinel when given its value. -/
theorem C1_theorem {minV maxV : Int} {s : OptimisticLinkedSet.LSet}
    (hlt : minV < maxV) (hWF : OptimisticLinkedSet.WFL minV maxV s) :
    OptimisticLinkedSet.contains s minV = some false ∧
      OptimisticLinkedSet.remove s minV = some (false, s) ∧
      OptimisticLinkedSet.contains s maxV = some true ∧
      OptimisticLinkedSet.remove s maxV = some (true,
        { chain := s.chain.dropLast,
          unlinked := ⟨maxV, false⟩ :: s.unlinked,
          size := (s.size + (sizetCard - 1)) % sizetCard }) := by
  obtain ⟨h₁, h₂, h₃, h₄, _⟩ := OptimisticLinkedSet.sentinel_ops hlt hWF
  exact ⟨h₁, h₂, h₃, h₄⟩

/-- Witness for C1 at the freshly constructed set over the element range
`[-128, 127]`. -/
theorem C1_witness :
    OptimisticLinkedSet.contains (OptimisticLinkedSet.initL (-128) 127) (-128) =
        some false ∧
      OptimisticLinkedSet.remove (OptimisticLinkedSet.initL (-128) 127) (-128) =
        some (false, OptimisticLinkedSet.initL (-128) 127) ∧
      OptimisticLinkedSet.contains (OptimisticLinkedSet.initL (-128) 127) 127 =
        some true ∧
      OptimisticLinkedSet.remove (OptimisticLinkedSet.initL (-128) 127) 127 =
        some (true,
          { chain := (OptimisticLinkedSet.initL (-128) 127).chain.dropLast,
            unlinked := ⟨127, false⟩ :: (OptimisticLinkedSet.initL (-128) 127).unlinked,
            size := ((OptimisticLinkedSet.initL (-128) 127).size + (sizetCard - 1)) %
              sizetCard }) :=
  C1_theorem (by norm_num) (OptimisticLinkedSet.WFL_init (by norm_num))

/-- Counterexample for C1 as stated: on the empty set, `Contains` of the
`MAX` sentinel value reports `true`, and `Remove` of that value returns
`true` and unlinks the tail sentinel node, leaving only the head in the
chain. -/
theorem C1_counterexample :
    OptimisticLinkedSet.contains (OptimisticLinkedSet.initL (-128) 127) 127 =
        some true ∧
      OptimisticLinkedSet.remove (OptimisticLinkedSet.initL (-128) 127) 127 =
        some (true, ⟨[⟨-128, false⟩], [⟨127, false⟩], sizetCard - 1⟩) := by
  constructor
  · decide
  · decide

/-- Claim C2 (code bug): the load-factor comparison in `Insert` is NOT the
real-number comparison `size / capacity > 1.25` the specification describes.
`GetLoadFactor` is declared to return `std::size_t`, so the `double`
quotient is truncated, and `max_load_factor_` is itself a `std::size_t`
field, so the configured `1.25` is stored as `1`.  Concretely: constructing
with concurrency level `4` stores `max_load_factor_ = 1`, and inserting
`0, 1, 2, 3, 4, 5, 6` in order succeeds with the table still at `4` buckets
and `7` elements — the seventh insert ran at ratio `6/4 = 1.5 > 1.25` and by
the specification had to trigger a global resize first, but the code
compares `1 > 1` and does not resize. -/
theorem C2_theorem :
    (StripedHashSet.run (fun v => v.natAbs)
        [SetOp.ins 0, SetOp.ins 1, SetOp.ins 2, SetOp.ins 3, SetOp.ins 4,
          SetOp.ins 5, SetOp.ins 6]
        (StripedHashSet.construct 4 2 (5 / 4))).map
      (fun p => (p.1, p.2.buckets.length, StripedHashSet.Size p.2)) =
      some ([SetRes.rb true, SetRes.rb true, SetRes.rb true, SetRes.rb true,
        SetRes.rb true, SetRes.rb true, SetRes.rb true], 4, 7) ∧
      (5 : ℚ) / 4 < (6 : ℚ) / 4 ∧
      (StripedHashSet.construct 4 2 (5 / 4)).maxLoad = 1 := by
  refine ⟨?_, by norm_num, ?_⟩
  · rw [construct_default]
    decide
  · rw [construct_default]

/-- Claim C3 (code bug): a successful `Remove(v)` does excise the stop node
and decrement the counter, and fails exactly when the stop node does not
hold `v` — but the excised node is NOT left with its marked flag set: the
code never stores `true` into `marked_`, so the unlinked node still carries
`marked_ == false`.  Shown on the concrete run `Insert(5); Remove(5)` from
the empty set over `[-128, 127]`: the removal succeeds, unlinks the node
holding `5`, decrements the size back to `0`, and the unlinked node is
unmarked. -/
theorem C3_theorem :
    OptimisticLinkedSet.insert (OptimisticLinkedSet.initL (-128) 127) 5 =
        some (true, ⟨[⟨-128, false⟩, ⟨5, false⟩, ⟨127, false⟩], [], 1⟩) ∧
      OptimisticLinkedSet.remove
          ⟨[⟨-128, false⟩, ⟨5, false⟩, ⟨127, false⟩], [], 1⟩ 5 =
        some (true, ⟨[⟨-128, false⟩, ⟨127, false⟩], [⟨5, false⟩], 0⟩) ∧
      (⟨5, false⟩ : OptimisticLinkedSet.LNode).marked = false := by
  refine ⟨by decide, by decide, rfl⟩

/-- Claim C4: under the reachable-state invariant, `Insert(v)` of the
striped set always returns; it returns `false` and leaves the state
unchanged when `v` is already present, and otherwise adds `v` exactly once —
it ends up at the head of the bucket selected by `hash(v)` modulo the
capacity, occurring exactly once in the table, with the size counter
incremented by one modulo `2 ^ 64` — and returns `true`; any resize taken on
the way mutates no element. -/
theorem C4_theorem {hash : Int → Nat} {s : StripedHashSet.State}
    (hInv : StripedHashSet.Inv hash s) (v : Int) :
    ∃ b s', StripedHashSet.InsertTop hash s v = some (b, s') ∧
      (b = false ↔ v ∈ StripedHashSet.elems s) ∧
      (b = false → s' = s) ∧
      (b = true →
        (∀ w, w ∈ StripedHashSet.elems s' ↔ w ∈ StripedHashSet.elems s ∨ w = v) ∧
        (StripedHashSet.elems s').count v = 1 ∧
        s'.size = (s.size + 1) % sizetCard ∧
        (s'.buckets.getD (hash v % s'.buckets.length) []).head? = some v) := by
  obtain ⟨b, s', h₁, _, _, _, _, h₂, h₃, h₄⟩ := StripedHashSet.InsertTop_spec hInv v
  exact ⟨b, s', h₁, h₂, h₃, fun hb =>
    ⟨(h₄ hb).1, (h₄ hb).2.2.1, (h₄ hb).2.2.2.1, (h₄ hb).2.2.2.2⟩⟩

/-- Witness for C4: inserting `7` into the freshly constructed table. -/
theorem C4_witness :
    ∃ b s', StripedHashSet.InsertTop (fun v => v.natAbs)
        (StripedHashSet.construct 4 2 (5 / 4)) 7 = some (b, s') ∧
      (b = false ↔ 7 ∈ StripedHashSet.elems (StripedHashSet.construct 4 2 (5 / 4))) ∧
      (b = false → s' = StripedHashSet.construct 4 2 (5 / 4)) ∧
      (b = true →
        (∀ w, w ∈ StripedHashSet.elems s' ↔
          w ∈ StripedHashSet.elems (StripedHashSet.construct 4 2 (5 / 4)) ∨ w = 7) ∧
        (StripedHashSet.elems s').count 7 = 1 ∧
        s'.size = ((StripedHashSet.construct 4 2 (5 / 4)).size + 1) % sizetCard ∧
        (s'.buckets.getD ((7 : Int).natAbs % s'.buckets.length) []).head? = some 7) :=
  C4_theorem
    (StripedHashSet.Inv_construct (fun v => v.natAbs) (5 / 4) (by norm_num) (by norm_num)) 7

/-- Claim C5: `Rehash` re-checks the load factor with every stripe held and
returns the state unchanged when it is no longer over threshold; otherwise
it rebuilds the table with exactly `capacity * growth_factor` buckets,
placing every stored element into the bucket its hash selects modulo the new
capacity; in both cases `Size` is untouched and every element previously
found by `Contains` is still found (and no other). -/
theorem C5_theorem {hash : Int → Nat} {s : StripedHashSet.State}
    (hInv : StripedHashSet.Inv hash s) :
    (StripedHashSet.GetLoadFactor s ≤ s.maxLoad →
        StripedHashSet.Rehash hash s = s) ∧
      (s.maxLoad < StripedHashSet.GetLoadFactor s →
        (StripedHashSet.Rehash hash s).buckets.length =
          s.buckets.length * s.growth ∧
        ∀ v ∈ StripedHashSet.elems s,
          v ∈ (StripedHashSet.Rehash hash s).buckets.getD
            (hash v % (s.buckets.length * s.growth)) []) ∧
      StripedHashSet.Size (StripedHashSet.Rehash hash s) = StripedHashSet.Size s ∧
      (∀ v, StripedHashSet.Contains hash (StripedHashSet.Rehash hash s) v =
        StripedHashSet.Contains hash s v) := by
  obtain ⟨hInv', hperm, hsz, _, _, _, _⟩ := StripedHashSet.Rehash_inv hInv
  refine ⟨StripedHashSet.Rehash_of_le, ?_, hsz, ?_⟩
  · intro hover
    obtain ⟨hlen, _, _, _, _, _, _, _⟩ := StripedHashSet.Rehash_spec hInv.capPos
      (le_trans one_le_two hInv.growth2) hover
    refine ⟨hlen, ?_⟩
    intro v hv
    have hv' : v ∈ StripedHashSet.elems (StripedHashSet.Rehash hash s) :=
      hperm.mem_iff.mpr hv
    have hmem := (StripedHashSet.mem_elems_iff hInv' v).mp hv'
    rwa [hlen] at hmem
  · intro v
    rw [StripedHashSet.Contains_spec hInv', StripedHashSet.Contains_spec hInv]
    exact decide_eq_decide.mpr hperm.mem_iff

/-- Witness for C5 at the freshly constructed table. -/
theorem C5_witness :
    (StripedHashSet.GetLoadFactor (StripedHashSet.construct 4 2 (5 / 4)) ≤
        (StripedHashSet.construct 4 2 (5 / 4)).maxLoad →
        StripedHashSet.Rehash (fun v => v.natAbs) (StripedHashSet.construct 4 2 (5 / 4)) =
          StripedHashSet.construct 4 2 (5 / 4)) ∧
      ((StripedHashSet.construct 4 2 (5 / 4)).maxLoad <
          StripedHashSet.GetLoadFactor (StripedHashSet.construct 4 2 (5 / 4)) →
        (StripedHashSet.Rehash (fun v => v.natAbs)
            (StripedHashSet.construct 4 2 (5 / 4))).buckets.length =
          (StripedHashSet.construct 4 2 (5 / 4)).buckets.length *
            (StripedHashSet.construct 4 2 (5 / 4)).growth ∧
        ∀ v ∈ StripedHashSet.elems (StripedHashSet.construct 4 2 (5 / 4)),
          v ∈ (StripedHashSet.Rehash (fun v => v.natAbs)
              (StripedHashSet.construct 4 2 (5 / 4))).buckets.getD
            ((v.natAbs) % ((StripedHashSet.construct 4 2 (5 / 4)).buckets.length *
              (StripedHashSet.construct 4 2 (5 / 4)).growth)) []) ∧
      StripedHashSet.Size (StripedHashSet.Rehash (fun v => v.natAbs)
          (StripedHashSet.construct 4 2 (5 / 4))) =
        StripedHashSet.Size (StripedHashSet.construct 4 2 (5 / 4)) ∧
      (∀ v, StripedHashSet.Contains (fun v => v.natAbs)
          (StripedHashSet.Rehash (fun v => v.natAbs)
            (StripedHashSet.construct 4 2 (5 / 4))) v =
        StripedHashSet.Contains (fun v => v.natAbs)
          (StripedHashSet.construct 4 2 (5 / 4)) v) :=
  C5_theorem
    (StripedHashSet.Inv_construct (fun v => v.natAbs) (5 / 4) (by norm_num) (by norm_num))

/-- Claim C6 (corrected): the freshly constructed chain is well formed, and
strict sortedness between the sentinels is preserved by `Insert` for every
argument strictly between the two sentinel values and by `Remove` for every
argument other than the tail sentinel value; it is NOT preserved for every
argument: inserting the `MIN` sentinel value duplicates the head value, and
removing the `MAX` sentinel value unlinks the tail sentinel. -/
theorem C6_theorem {minV maxV : Int} (hlt : minV < maxV) :
    OptimisticLinkedSet.WFL minV maxV (OptimisticLinkedSet.initL minV maxV) ∧
      (∀ (s s' : OptimisticLinkedSet.LSet) (v : Int) (b : Bool),
        OptimisticLinkedSet.WFL minV maxV s → minV ≤ v → v ≤ maxV → v ≠ minV →
        OptimisticLinkedSet.insert s v = some (b, s') →
        OptimisticLinkedSet.WFL minV maxV s') ∧
      (∀ (s s' : OptimisticLinkedSet.LSet) (v : Int) (b : Bool),
        OptimisticLinkedSet.WFL minV maxV s → minV ≤ v → v ≤ maxV → v ≠ maxV →
        OptimisticLinkedSet.remove s v = some (b, s') →
        OptimisticLinkedSet.WFL minV maxV s') := by
  refine ⟨OptimisticLinkedSet.WFL_init hlt, ?_, ?_⟩
  · intro s s' v b hWF hlo hhi hne hop
    by_cases hmax : v = maxV
    · subst hmax
      obtain ⟨_, _, _, _, he⟩ := OptimisticLinkedSet.sentinel_ops hlt hWF
      rw [he] at hop
      simp only [Option.some.injEq, Prod.mk.injEq] at hop
      rw [← hop.2]
      exact hWF
    · have hlo' : minV < v := lt_of_le_of_ne hlo (Ne.symm hne)
      have hhi' : v < maxV := lt_of_le_of_ne hhi hmax
      obtain ⟨b₀, s₀, hop₀, hWF₀, _, _, _⟩ :=
        OptimisticLinkedSet.insert_spec hWF hlo' hhi'
      rw [hop₀] at hop
      simp only [Option.some.injEq, Prod.mk.injEq] at hop
      rw [← hop.2]
      exact hWF₀
  · intro s s' v b hWF hlo hhi hne hop
    by_cases hmin : v = minV
    · subst hmin
      obtain ⟨_, h₂, _, _, _⟩ := OptimisticLinkedSet.sentinel_ops hlt hWF
      rw [h₂] at hop
      simp only [Option.some.injEq, Prod.mk.injEq] at hop
      rw [← hop.2]
      exact hWF
    · have hlo' : minV < v := lt_of_le_of_ne hlo (Ne.symm hmin)
      have hhi' : v < maxV := lt_of_le_of_ne hhi hne
      obtain ⟨b₀, s₀, hop₀, hWF₀, _, _, _⟩ :=
        OptimisticLinkedSet.remove_spec hWF hlo' hhi'
      rw [hop₀] at hop
      simp only [Option.some.injEq, Prod.mk.injEq] at hop
      rw [← hop.2]
      exact hWF₀

/-- Witness for C6 over the element range `[-128, 127]`. -/
theorem C6_witness :
    OptimisticLinkedSet.WFL (-128) 127 (OptimisticLinkedSet.initL (-128) 127) ∧
      (∀ (s s' : OptimisticLinkedSet.LSet) (v : Int) (b : Bool),
        OptimisticLinkedSet.WFL (-128) 127 s → -128 ≤ v → v ≤ 127 → v ≠ -128 →
        OptimisticLinkedSet.insert s v = some (b, s') →
        OptimisticLinkedSet.WFL (-128) 127 s') ∧
      (∀ (s s' : OptimisticLinkedSet.LSet) (v : Int) (b : Bool),
        OptimisticLinkedSet.WFL (-128) 127 s → -128 ≤ v → v ≤ 127 → v ≠ 127 →
        OptimisticLinkedSet.remove s v = some (b, s') →
        OptimisticLinkedSet.WFL (-128) 127 s') :=
  C6_theorem (by norm_num)

/-- Counterexample for C6 as stated: inserting the `MIN` sentinel value into
the empty set succeeds and produces a chain whose values are not strictly
increasing — the head value `-128` is duplicated. -/
theorem C6_counterexample :
    OptimisticLinkedSet.insert (OptimisticLinkedSet.initL (-128) 127) (-128) =
        some (true, ⟨[⟨-128, false⟩, ⟨-128, false⟩, ⟨127, false⟩], [], 1⟩) ∧
      ¬ OptimisticLinkedSet.StrictChain
        [⟨-128, false⟩, ⟨-128, false⟩, ⟨127, false⟩] := by
  refine ⟨by decide, ?_⟩
  intro h
  have h₂ := OptimisticLinkedSet.strictChain_iff_pairwise.mp h
  rw [List.pairwise_cons] at h₂
  have h₃ := h₂.1 ⟨-128, false⟩ (by simp)
  simp [OptimisticLinkedSet.nlt] at h₃

/-- Claim C7 (corrected): after any finite trace that completes from a fresh
instance, the striped set satisfies both equalities — `Size()` equals the
sum of the bucket lengths and equals successful inserts minus successful
removals — and the linked set satisfies the same counter equality for every
trace of representable arguments that contains no `Remove` of the `MAX`
sentinel value: `Insert` and `Contains` of `MAX` and all `MIN`-valued
operations are included.  `Remove(Max)` alone breaks it — it succeeds on
the empty set and drives the `size_t` counter to `2 ^ 64 - 1` by
wraparound, not to the claimed difference `0 - 1`. -/
theorem C7_theorem :
    (∀ (hash : Int → Nat) (c g : Nat) (q : ℚ) (ops : List SetOp)
        (rs : List SetRes) (s' : StripedHashSet.State),
      1 ≤ c → 2 ≤ g → ops.length < sizetCard →
      StripedHashSet.run hash ops (StripedHashSet.construct c g q) = some (rs, s') →
      StripedHashSet.Size s' = StripedHashSet.sumLen s' ∧
        (StripedHashSet.Size s' : Int) =
          (succIns ops rs : Int) - (succRem ops rs : Int)) ∧
    (∀ (minV maxV : Int) (ops : List SetOp) (rs : List SetRes)
        (s' : OptimisticLinkedSet.LSet),
      minV ≤ maxV → argsNoRemMax minV maxV ops → ops.length < sizetCard →
      OptimisticLinkedSet.run ops (OptimisticLinkedSet.initL minV maxV) =
        some (rs, s') →
      (OptimisticLinkedSet.size s' : Int) =
        (succIns ops rs : Int) - (succRem ops rs : Int)) := by
  constructor
  · intro hash c g q ops rs s' hc hg hlen hrun
    obtain ⟨rs₀, s₀, hrun₀, hInv', hcount⟩ :=
      StripedHashSet.runStriped_spec ops _ (StripedHashSet.Inv_construct hash q hc hg)
    rw [hrun] at hrun₀
    simp only [Option.some.injEq, Prod.mk.injEq] at hrun₀
    obtain ⟨h₁, h₂⟩ := hrun₀
    subst h₁
    subst h₂
    have h0 : StripedHashSet.elems (StripedHashSet.construct c g q) = [] := by
      simp [StripedHashSet.elems, StripedHashSet.construct]
    rw [h0] at hcount
    simp only [List.length_nil, zero_add] at hcount
    have hIns := succIns_le ops rs
    have hle : (StripedHashSet.elems s').length < sizetCard := by omega
    constructor
    · rw [StripedHashSet.sumLen_eq_length]
      show s'.size = (StripedHashSet.elems s').length
      rw [hInv'.sizeEq]
      exact Nat.mod_eq_of_lt hle
    · show (s'.size : Int) = _
      rw [hInv'.sizeEq, Nat.mod_eq_of_lt hle]
      omega
  · intro minV maxV ops rs s' hle hargs hlen hrun
    have hsz0 : (OptimisticLinkedSet.initL minV maxV).size =
        (OptimisticLinkedSet.interior (OptimisticLinkedSet.initL minV maxV)).length %
          sizetCard := by
      simp [OptimisticLinkedSet.initL, OptimisticLinkedSet.interior]
    obtain ⟨rs₀, s₀, hrun₀, hWF', hsz', hcount⟩ :=
      OptimisticLinkedSet.runG_spec ops _ (OptimisticLinkedSet.WFG_init hle) hsz0 hargs
    rw [hrun] at hrun₀
    simp only [Option.some.injEq, Prod.mk.injEq] at hrun₀
    obtain ⟨h₁, h₂⟩ := hrun₀
    subst h₁
    subst h₂
    have h0 : (OptimisticLinkedSet.interior
        (OptimisticLinkedSet.initL minV maxV)).length = 0 := by
      simp [OptimisticLinkedSet.initL, OptimisticLinkedSet.interior]
    rw [h0] at hcount
    have hIns := succIns_le ops rs
    have hlt : (OptimisticLinkedSet.interior s').length < sizetCard := by omega
    show (s'.size : Int) = _
    rw [hsz', Nat.mod_eq_of_lt hlt]
    omega

/-- Witness for C7: the trace `Insert(5); Insert(5); Remove(5)` against the
fresh striped set, and the trace
`Insert(Min); Insert(5); Remove(Min); Remove(5); Insert(Max)` against the
fresh linked set, the latter exercising both sentinel values the amended
claim covers. -/
theorem C7_witness :
    (StripedHashSet.Size
          (⟨2, 1, 4, [[], [], [], []], 0⟩ : StripedHashSet.State) =
        StripedHashSet.sumLen ⟨2, 1, 4, [[], [], [], []], 0⟩ ∧
      (StripedHashSet.Size
          (⟨2, 1, 4, [[], [], [], []], 0⟩ : StripedHashSet.State) : Int) =
        (succIns [SetOp.ins 5, SetOp.ins 5, SetOp.rem 5]
            [SetRes.rb true, SetRes.rb false, SetRes.rb true] : Int) -
          (succRem [SetOp.ins 5, SetOp.ins 5, SetOp.rem 5]
            [SetRes.rb true, SetRes.rb false, SetRes.rb true] : Int)) ∧
      ((OptimisticLinkedSet.size
          (⟨[⟨-128, false⟩, ⟨127, false⟩], [⟨5, false⟩, ⟨-128, false⟩], 0⟩ :
            OptimisticLinkedSet.LSet) : Int) =
        (succIns
            [SetOp.ins (-128), SetOp.ins 5, SetOp.rem (-128), SetOp.rem 5,
              SetOp.ins 127]
            [SetRes.rb true, SetRes.rb true, SetRes.rb true, SetRes.rb true,
              SetRes.rb false] : Int) -
          (succRem
            [SetOp.ins (-128), SetOp.ins 5, SetOp.rem (-128), SetOp.rem 5,
              SetOp.ins 127]
            [SetRes.rb true, SetRes.rb true, SetRes.rb true, SetRes.rb true,
              SetRes.rb false] : Int)) :=
  ⟨C7_theorem.1 (fun v => v.natAbs) 4 2 (5 / 4)
      [SetOp.ins 5, SetOp.ins 5, SetOp.rem 5]
      [SetRes.rb true, SetRes.rb false, SetRes.rb true]
      ⟨2, 1, 4, [[], [], [], []], 0⟩
      (by norm_num) (by norm_num) (by decide)
      (by rw [construct_default]; decide),
    C7_theorem.2 (-128) 127
      [SetOp.ins (-128), SetOp.ins 5, SetOp.rem (-128), SetOp.rem 5, SetOp.ins 127]
      [SetRes.rb true, SetRes.rb true, SetRes.rb true, SetRes.rb true,
        SetRes.rb false]
      ⟨[⟨-128, false⟩, ⟨127, false⟩], [⟨5, false⟩, ⟨-128, false⟩], 0⟩
      (by norm_num) (by decide) (by decide) (by decide)⟩

/-- Counterexample for C7 as stated: on the linked set, the single-operation
trace `Remove(Max)` from the empty set succeeds (one successful removal,
no successful insert), and the resulting `Size()` is the wrapped `size_t`
value `2 ^ 64 - 1`, which does not equal the claimed difference `0 - 1`. -/
theorem C7_counterexample :
    (OptimisticLinkedSet.run [SetOp.rem 127]
        (OptimisticLinkedSet.initL (-128) 127)).map
      (fun p => (p.1, OptimisticLinkedSet.size p.2)) =
      some ([SetRes.rb true], sizetCard - 1) ∧
      ((sizetCard - 1 : Nat) : Int) ≠
        (succIns [SetOp.rem 127] [SetRes.rb true] : Int) -
          (succRem [SetOp.rem 127] [SetRes.rb true] : Int) := by
  constructor
  · decide
  · decide

/-- Claim C8 (corrected): for every trace of `Insert`, `Remove`, `Contains`
and `Size` calls whose arguments avoid the linked set's `MAX` sentinel value
— any arguments from `MIN` inclusive up to `MAX` exclusive — the two freshly
constructed implementations return the same result for every call;
operations on the `MAX` value itself genuinely diverge: on fresh instances
the striped set answers `Contains(Max) = false` while the linked set
answers `true`. -/
theorem C8_theorem {hash : Int → Nat} {minV maxV : Int} {c g : Nat} (q : ℚ)
    (hc : 1 ≤ c) (hg : 2 ≤ g) (hle : minV ≤ maxV) (ops : List SetOp)
    (hargs : argsBelow minV maxV ops) :
    ∃ rs s₁ s₂,
      StripedHashSet.run hash ops (StripedHashSet.construct c g q) =
          some (rs, s₁) ∧
        OptimisticLinkedSet.run ops (OptimisticLinkedSet.initL minV maxV) =
          some (rs, s₂) := by
  obtain ⟨rs, s₁', s₂', h₁, h₂⟩ :=
    runs_agreeG ops (StripedHashSet.construct c g q)
      (OptimisticLinkedSet.initL minV maxV)
      (StripedHashSet.Inv_construct hash q hc hg)
      (OptimisticLinkedSet.WFG_init hle) rfl
      (fun w => by
        simp [StripedHashSet.elems, StripedHashSet.construct,
          OptimisticLinkedSet.interior, OptimisticLinkedSet.initL])
      hargs
  exact ⟨rs, s₁', s₂', h₁, h₂⟩

/-- Witness for C8: a five-call trace built entirely from the `MIN`
sentinel value against both fresh instances. -/
theorem C8_witness :
    ∃ rs s₁ s₂,
      StripedHashSet.run (fun v => v.natAbs)
          [SetOp.ins (-128), SetOp.qry (-128), SetOp.rem (-128),
            SetOp.qry (-128), SetOp.siz]
          (StripedHashSet.construct 4 2 (5 / 4)) = some (rs, s₁) ∧
        OptimisticLinkedSet.run
          [SetOp.ins (-128), SetOp.qry (-128), SetOp.rem (-128),
            SetOp.qry (-128), SetOp.siz]
          (OptimisticLinkedSet.initL (-128) 127) = some (rs, s₂) :=
  C8_theorem (5 / 4) (by norm_num) (by norm_num) (by norm_num)
    [SetOp.ins (-128), SetOp.qry (-128), SetOp.rem (-128), SetOp.qry (-128),
      SetOp.siz] (by decide)

/-- Counterexample for C8 as stated: the one-call trace `Contains(Max)`
against fresh instances returns `false` from the striped set and `true`
from the linked set. -/
theorem C8_counterexample :
    (StripedHashSet.run (fun v => v.natAbs) [SetOp.qry 127]
        (StripedHashSet.construct 4 2 (5 / 4))).map (fun p => p.1) =
      some [SetRes.rb false] ∧
      (OptimisticLinkedSet.run [SetOp.qry 127]
        (OptimisticLinkedSet.initL (-128) 127)).map (fun p => p.1) =
      some [SetRes.rb true] ∧
      ([SetRes.rb false] : List SetRes) ≠ [SetRes.rb true] := by
  refine ⟨?_, by decide, by decide⟩
  rw [construct_default]
  decide

/-- Claim C9: no operation ever stores `true` into a marked flag — in every
state reachable by any sequence of operations every node, in the chain or
already unlinked, has `marked_ == false`; consequently `Validate` on any
edge of the chain reduces to the structural check `pred.next == curr` alone,
and the unmarked conjunct of `Contains` never rejects a candidate:
`Contains` agrees everywhere with its mark-free variant. -/
theorem C9_theorem {minV maxV : Int} {s : OptimisticLinkedSet.LSet}
    (hle : minV ≤ maxV) (h : OptimisticLinkedSet.ReachL minV maxV s) :
    (∀ n ∈ s.chain, n.marked = false) ∧
      (∀ n ∈ s.unlinked, n.marked = false) ∧
      (∀ p ∈ s.chain, ∀ c ∈ s.chain, ∀ b : Bool,
        OptimisticLinkedSet.Validate p c b = b) ∧
      (∀ v : Int, OptimisticLinkedSet.contains s v =
        OptimisticLinkedSet.containsNoMark s v) := by
  obtain ⟨h₁, h₂, _⟩ := OptimisticLinkedSet.reach_inv hle h
  refine ⟨h₁, h₂, ?_, ?_⟩
  · intro p hp c hc b
    simp [OptimisticLinkedSet.Validate, h₁ p hp, h₁ c hc]
  · intro v
    obtain ⟨ch, unl, sz⟩ := s
    cases ch with
    | nil => rfl
    | cons hh tt =>
      show OptimisticLinkedSet.walkCont v tt = OptimisticLinkedSet.walkContNoMark v tt
      rw [OptimisticLinkedSet.walkCont_eq, OptimisticLinkedSet.walkContNoMark_eq]
      cases hdw : tt.dropWhile (OptimisticLinkedSet.ltv v) with
      | nil => rfl
      | cons c rest =>
        have hsuf : tt.dropWhile (OptimisticLinkedSet.ltv v) <:+ tt :=
          List.dropWhile_suffix _
        rw [hdw] at hsuf
        have hc : c ∈ tt := hsuf.sublist.mem (by simp)
        have hcm : c.marked = false := h₁ c (List.mem_cons_of_mem _ hc)
        show some (!c.marked && decide (c.elem = v)) = some (decide (c.elem = v))
        rw [hcm]
        simp

/-- Witness for C9 at the freshly constructed set over `[-128, 127]`. -/
theorem C9_witness :
    (∀ n ∈ (OptimisticLinkedSet.initL (-128) 127).chain, n.marked = false) ∧
      (∀ n ∈ (OptimisticLinkedSet.initL (-128) 127).unlinked, n.marked = false) ∧
      (∀ p ∈ (OptimisticLinkedSet.initL (-128) 127).chain,
        ∀ c ∈ (OptimisticLinkedSet.initL (-128) 127).chain, ∀ b : Bool,
        OptimisticLinkedSet.Validate p c b = b) ∧
      (∀ v : Int,
        OptimisticLinkedSet.contains (OptimisticLinkedSet.initL (-128) 127) v =
          OptimisticLinkedSet.containsNoMark (OptimisticLinkedSet.initL (-128) 127) v) :=
  C9_theorem (by norm_num) OptimisticLinkedSet.ReachL.init

/-- Claim C10: with the tail sentinel holding the maximum representable
value, `Insert` of that value returns `false` whenever it returns at all, in
every reachable state — `Locate` stops at a node whose element is at least
the argument, and by the reachability bounds that node holds exactly the
sentinel value, so the equality test fails the insertion — and on the empty
set the call returns `false` and changes nothing; the value can never be
added. -/
theorem C10_theorem {minV maxV : Int} {s : OptimisticLinkedSet.LSet}
    (hle : minV ≤ maxV) (h : OptimisticLinkedSet.ReachL minV maxV s) :
    (∀ r : Bool × OptimisticLinkedSet.LSet,
      OptimisticLinkedSet.insert s maxV = some r → r.1 = false) ∧
      OptimisticLinkedSet.insert (OptimisticLinkedSet.initL minV maxV) maxV =
        some (false, OptimisticLinkedSet.initL minV maxV) := by
  obtain ⟨h₁, _, h₃⟩ := OptimisticLinkedSet.reach_inv hle h
  constructor
  · intro r hr
    obtain ⟨ch, unl, sz⟩ := s
    cases ch with
    | nil =>
      have hr' : (none : Option (Bool × OptimisticLinkedSet.LSet)) = some r := hr
      exact Option.noConfusion hr'
    | cons hh tt =>
      have hmh : hh.marked = false := h₁ hh (by simp)
      have hmt : ∀ n ∈ tt, n.marked = false := fun n hn => h₁ n (by simp [hn])
      have hwalk := OptimisticLinkedSet.walkIns_eq maxV tt hh hmh hmt
      cases hdw : tt.dropWhile (OptimisticLinkedSet.ltv maxV) with
      | nil =>
        rw [hdw] at hwalk
        have hwalk' : OptimisticLinkedSet.walkIns maxV hh tt = none := by rw [hwalk]
        rw [OptimisticLinkedSet.insert_cons, hwalk'] at hr
        exact Option.noConfusion hr
      | cons c rest =>
        rw [hdw] at hwalk
        have hsuf : tt.dropWhile (OptimisticLinkedSet.ltv maxV) <:+ tt :=
          List.dropWhile_suffix _
        rw [hdw] at hsuf
        have hc : c ∈ tt := hsuf.sublist.mem (by simp)
        have hcle : c.elem ≤ maxV := (h₃ c (List.mem_cons_of_mem _ hc)).2
        have hcge : maxV ≤ c.elem := OptimisticLinkedSet.stop_ge hdw
        have hceq : c.elem = maxV := le_antisymm hcle hcge
        have hwalk' : OptimisticLinkedSet.walkIns maxV hh tt = some (false, tt) := by
          rw [hwalk]
          simp [hceq]
        rw [OptimisticLinkedSet.insert_cons, hwalk'] at hr
        have hr' : some ((false, ⟨hh :: tt, unl, sz⟩) :
            Bool × OptimisticLinkedSet.LSet) = some r := hr
        simp only [Option.some.injEq] at hr'
        rw [← hr']
  · simp [OptimisticLinkedSet.insert, OptimisticLinkedSet.initL,
      OptimisticLinkedSet.walkIns]

/-- Witness for C10 at the freshly constructed set over `[-128, 127]`. -/
theorem C10_witness :
    (∀ r : Bool × OptimisticLinkedSet.LSet,
      OptimisticLinkedSet.insert (OptimisticLinkedSet.initL (-128) 127) 127 =
        some r → r.1 = false) ∧
      OptimisticLinkedSet.insert (OptimisticLinkedSet.initL (-128) 127) 127 =
        some (false, OptimisticLinkedSet.initL (-128) 127) :=
  C10_theorem (by norm_num) OptimisticLinkedSet.ReachL.init
